import Mathlib

/-
Verification of the DeployScript release coordinator.

The Go sources are shallowly embedded: Go strings become `List Char`
(`GoString`), the `strings` package operations used by the code are defined
below with Go semantics, and each Go function under scrutiny is translated
into a pure Lean function over these types.  Subprocess and HTTP effects are
abstracted into explicit environment records whose fields hold exactly the
data the corresponding external call returns.
-/

namespace DeployScript

/-- Go strings, modelled as lists of characters.  Go compares strings
byte-wise over UTF-8; byte-wise UTF-8 order coincides with code-point order,
so the lexicographic order on `List Char` is the faithful model. -/
abbrev GoString := List Char

/-- Embed a Lean string literal as a `GoString`. -/
def gs (s : String) : GoString := s.toList

namespace GoStr

/-- Model of Go `strings.Contains`: substring containment. -/
def contains (s sub : GoString) : Bool := decide (sub <:+: s)

/-- Model of Go `strings.HasPrefix`. -/
def startsWith (s pre : GoString) : Bool := decide (pre <+: s)

/-- First index at which `sub` occurs in `s`, if any
(the index Go `strings.Index` reports when non-negative). -/
def firstIdx (s sub : GoString) : Option Nat :=
  (List.range (s.length + 1)).find? fun i => decide (sub <+: s.drop i)

/-- Model of Go `strings.Index`: first occurrence index, `-1` if absent. -/
def index (s sub : GoString) : Int :=
  match firstIdx s sub with
  | some i => (i : Int)
  | none => -1

/-- Character class trimmed by Go `strings.TrimSpace` (ASCII white space;
the sources only ever meet ASCII here). -/
def isSpace (c : Char) : Bool :=
  c = ' ' || c = '\t' || c = '\n' || c = '\r' || c = '\x0b' || c = '\x0c'

/-- Model of Go `strings.TrimSpace`. -/
def trimSpace (s : GoString) : GoString :=
  ((s.dropWhile isSpace).reverse.dropWhile isSpace).reverse

/-- Model of Go `strings.Replace(s, old, new, 1)`: replace the first
occurrence only. -/
def replaceFirst (s old new : GoString) : GoString :=
  match s with
  | [] => if old.isPrefixOf [] then new else []
  | c :: rest =>
      if old.isPrefixOf (c :: rest) then new ++ (c :: rest).drop old.length
      else c :: replaceFirst rest old new

/-- Model of Go `strings.ReplaceAll` for a single-character pattern and
replacement, the only shape the sources use (`"/"` to `"-"` and back). -/
def replaceAllChar (s : GoString) (oldc newc : Char) : GoString :=
  s.map fun x => if x = oldc then newc else x

/-- Go slice expression `s[a:b]` (indices are in range whenever the embedded
code reaches the slice, because of the guards it performs first). -/
def slice (s : GoString) (a b : Int) : GoString :=
  (s.take b.toNat).drop a.toNat

/-- Go slice expression `s[a:]`. -/
def dropFrom (s : GoString) (a : Int) : GoString := s.drop a.toNat

/-- Model of Go `strings.SplitN(s, sep, 2)` for a one-character separator. -/
def splitN2 (s : GoString) (sep : Char) : List GoString :=
  match firstIdx s [sep] with
  | some i => [s.take i, s.drop (i + 1)]
  | none => [s]

/-- Model of Go `strings.Split(s, "\n")`. -/
def splitLines (s : GoString) : List GoString := List.splitOn '\n' s

/-- Model of Go `strings.Join(lines, "\n")`. -/
def joinLines (lines : List GoString) : GoString := (gs "\n").intercalate lines

/-- Model of Go `sort.Strings`: sorts ascending in the byte-wise string
order, which on `GoString` is the lexicographic `≤` of `List Char`. -/
def sortStrings (l : List GoString) : List GoString :=
  List.insertionSort (· ≤ ·) l

/-- Model of Go `strings.Repeat(s, n)` for a one-character `s`. -/
def repeatChar (c : Char) (n : Nat) : GoString := List.replicate n c

/-- Model of Go `fmt.Sprintf("%d", i)` for `int` arguments. -/
def intStr (i : Int) : GoString := (toString i).toList

/-- Model of Go `fmt.Sprintf("%-Ns", s)`: pad on the right with spaces up to
width `w`, never truncating. -/
def padRight (s : GoString) (w : Nat) : GoString :=
  s ++ List.replicate (w - s.length) ' '

theorem replaceFirst_self (s a : GoString) : replaceFirst s a a = s := by
  induction s with
  | nil =>
      unfold replaceFirst
      split
      · next h =>
          have : a <+: ([] : GoString) := ( List.isPrefixOf_iff_prefix).mp h
          exact List.prefix_nil.mp this
      · rfl
  | cons c rest ih =>
      unfold replaceFirst
      split
      · next h =>
          have hp : a <+: (c :: rest) := ( List.isPrefixOf_iff_prefix).mp h
          exact List.prefix_iff_eq_append.mp hp
      · simp [ih]

theorem sortStrings_sorted (l : List GoString) :
    (sortStrings l).Sorted (· ≤ ·) :=
  List.sorted_insertionSort _ l

theorem sortStrings_perm (l : List GoString) : (sortStrings l).Perm l :=
  List.perm_insertionSort _ l

theorem mem_sortStrings (t : GoString) (l : List GoString) :
    t ∈ sortStrings l ↔ t ∈ l :=
  (sortStrings_perm l).mem_iff

end GoStr

namespace Main

open GoStr

/-
Embedding of `updatePomFile` from `main.go` (the line-oriented descriptor
rewriter).  File IO is removed: the function maps the file's contents to the
contents written back.  The per-line mutable variables of the Go loop body
become the fields of `PomState`; the loop is a left-to-right fold.
-/

/-- The mutable per-file context of the `updatePomFile` loop in `main.go`:
`insideProject`, `insideParent`, `insideProperties`, `rootVersionUpdated`,
`parentVersionUpdated`, `tagsAfterProject`. -/
structure PomState where
  insideProject : Bool
  insideParent : Bool
  insideProperties : Bool
  rootVersionUpdated : Bool
  parentVersionUpdated : Bool
  tagsAfterProject : Nat
deriving Repr, DecidableEq

/-- Initial state of the `updatePomFile` loop. -/
def initPomState : PomState :=
  { insideProject := false, insideParent := false, insideProperties := false,
    rootVersionUpdated := false, parentVersionUpdated := false,
    tagsAfterProject := 0 }

/-- Which rewrite actions fired on one line: a top-level version rewrite
(CASE 1 for root descriptors or CASE 2b for submodules, both guarded by
`rootVersionUpdated`), a parent-block version rewrite (CASE 2a, guarded by
`parentVersionUpdated`), and a property rewrite (CASE 3, unguarded).
`identity` records that every rewrite that fired on this line replaced its
target by an equal string, i.e. the field was already at the new version. -/
structure LineFires where
  topLevel : Bool
  parentBlock : Bool
  property : Bool
  identity : Bool
deriving Repr, DecidableEq

/-- The context-flag updates at the top of the `updatePomFile` loop body:
entering `<project`, toggling the parent block, toggling the properties
block, and counting child tags seen directly under the project element. -/
def updFlags (st : PomState) (line trimmed : GoString) : PomState :=
  let st :=
    if contains line (gs "<project") then
      { st with insideProject := true, tagsAfterProject := 0 }
    else st
  let st :=
    if contains line (gs "<parent>") then { st with insideParent := true }
    else if contains line (gs "</parent>") then { st with insideParent := false }
    else st
  let st :=
    if contains line (gs "<properties>") then { st with insideProperties := true }
    else if contains line (gs "</properties>") then { st with insideProperties := false }
    else st
  if st.insideProject && !st.insideParent && !st.insideProperties
      && (contains trimmed (gs "<") && !contains trimmed (gs "</")
          && !contains trimmed (gs "<version>")) then
    { st with tagsAfterProject := st.tagsAfterProject + 1 }
  else st

/-- Result of the version-tag update section on one line. -/
structure VersionUpdResult where
  st : PomState
  out : GoString
  fTop : Bool
  fPar : Bool
  ident : Bool
deriving Repr, DecidableEq

/-- The version-tag update section of the loop body (CASE 1, CASE 2a and
CASE 2b).  Every firing case recomputes its replacement from the original
`line`, as the Go code does; `fTop` records whether a top-level rewrite
(CASE 1 or 2b) fired, `fPar` whether a parent-block rewrite (CASE 2a)
fired, and `ident` that any fired rewrite was an identity replacement. -/
def versionUpd (isRootPom : Bool) (newVersion : GoString) (st : PomState)
    (line trimmed : GoString) : VersionUpdResult :=
  if contains trimmed (gs "<version>") && contains trimmed (gs "</version>") then
    let start := index trimmed (gs "<version>") + 9
    let stop := index trimmed (gs "</version>")
    if start > 8 && stop > start then
      let currentVersion := slice trimmed start stop
      let oldTag := gs "<version>" ++ currentVersion ++ gs "</version>"
      let newTag := gs "<version>" ++ newVersion ++ gs "</version>"
      let fired1 := isRootPom && st.insideProject && !st.insideParent
          && !st.insideProperties && !st.rootVersionUpdated
          && decide (st.tagsAfterProject ≤ 4)
      let st1 := if fired1 then { st with rootVersionUpdated := true } else st
      let out1 := if fired1 then replaceFirst line oldTag newTag else line
      let fired2a := !isRootPom && st1.insideParent && !st1.parentVersionUpdated
      let st2 := if fired2a then { st1 with parentVersionUpdated := true } else st1
      let out2 := if fired2a then replaceFirst line oldTag newTag else out1
      let fired2b := !isRootPom && st2.insideProject && !st2.insideParent
          && !st2.insideProperties && !st2.rootVersionUpdated
          && decide (st2.tagsAfterProject ≤ 4)
      let st3 := if fired2b then { st2 with rootVersionUpdated := true } else st2
      let out3 := if fired2b then replaceFirst line oldTag newTag else out2
      ⟨st3, out3, fired1 || fired2b, fired2a,
        !(fired1 || fired2a || fired2b) || (currentVersion == newVersion)⟩
    else ⟨st, line, false, false, true⟩
  else ⟨st, line, false, false, true⟩

/-- Result of the property update section on one line. -/
structure PropUpdResult where
  out : GoString
  fired : Bool
  ident : Bool
deriving Repr, DecidableEq

/-- CASE 3 of the loop body: the property rewriter.  `out` is the line
content produced by the version cases; when CASE 3 fires it recomputes its
replacement from the original `line`, overwriting `out`, exactly as the Go
code overwrites `lines[i]`. -/
def propUpd (newVersion : GoString) (st : PomState)
    (line trimmed out : GoString) : PropUpdResult :=
  if st.insideProperties && contains trimmed (gs "proezd")
      && contains trimmed (gs "<") && contains trimmed (gs ">") then
    let startTag := index trimmed (gs "<")
    let endTag := index trimmed (gs ">")
    if startTag ≥ 0 && endTag > startTag then
      let tagContent := slice trimmed (startTag + 1) endTag
      if contains tagContent (gs "proezd") && !startsWith tagContent (gs "/") then
        let valueStart := endTag + 1
        let valueEnd := index (dropFrom trimmed valueStart) (gs "<")
        if valueEnd > 0 then
          let oldValue := slice trimmed valueStart (valueStart + valueEnd)
          ⟨replaceFirst line (gs ">" ++ oldValue ++ gs "<")
            (gs ">" ++ newVersion ++ gs "<"), true, oldValue == newVersion⟩
        else ⟨out, false, true⟩
      else ⟨out, false, true⟩
    else ⟨out, false, true⟩
  else ⟨out, false, true⟩

/-- One iteration of the `updatePomFile` loop: flag updates, the version
cases, then the property case. -/
def updatePomLine (isRootPom : Bool) (newVersion : GoString) (st : PomState)
    (line : GoString) : PomState × GoString × LineFires :=
  let trimmed := trimSpace line
  let st := updFlags st line trimmed
  let v := versionUpd isRootPom newVersion st line trimmed
  let p := propUpd newVersion v.st line trimmed v.out
  (v.st, p.out,
    { topLevel := v.fTop, parentBlock := v.fPar, property := p.fired,
      identity := v.ident && p.ident })

/-- How many lines each kind of rewrite fired on during one pass, and
whether every fired rewrite of the pass was an identity replacement. -/
structure PomCounts where
  topLevel : Nat
  parentBlock : Nat
  property : Nat
  identity : Bool
deriving Repr, DecidableEq

/-- The `updatePomFile` loop over all lines, also counting fired rewrites. -/
def updatePomLines (isRootPom : Bool) (newVersion : GoString) :
    PomState → List GoString → PomState × List GoString × PomCounts
  | st, [] => (st, [], ⟨0, 0, 0, true⟩)
  | st, l :: ls =>
      let s := updatePomLine isRootPom newVersion st l
      let r := updatePomLines isRootPom newVersion s.1 ls
      (r.1, s.2.1 :: r.2.1,
        ⟨(if s.2.2.topLevel then 1 else 0) + r.2.2.topLevel,
         (if s.2.2.parentBlock then 1 else 0) + r.2.2.parentBlock,
         (if s.2.2.property then 1 else 0) + r.2.2.property,
         s.2.2.identity && r.2.2.identity⟩)

/-- Embedding of `updatePomFile(filename, version, isRootPom)` from
`main.go` as a map from file contents to the contents written back:
normalise the version to `version + ".0"`, split into lines, run the loop,
join with newlines. -/
def updatePomFile (version : GoString) (isRootPom : Bool)
    (content : GoString) : GoString :=
  let newVersion := version ++ gs ".0"
  let lines := splitLines content
  joinLines (updatePomLines isRootPom newVersion initPomState lines).2.1

/-- The rewrite-fire counts of one `updatePomFile` pass. -/
def updatePomCounts (version : GoString) (isRootPom : Bool)
    (content : GoString) : PomCounts :=
  (updatePomLines isRootPom (version ++ gs ".0") initPomState
    (splitLines content)).2.2

theorem updFlags_rootVersionUpdated (st : PomState) (line trimmed : GoString) :
    (updFlags st line trimmed).rootVersionUpdated = st.rootVersionUpdated := by
  simp only [updFlags]
  split_ifs <;> rfl

theorem updFlags_parentVersionUpdated (st : PomState) (line trimmed : GoString) :
    (updFlags st line trimmed).parentVersionUpdated = st.parentVersionUpdated := by
  simp only [updFlags]
  split_ifs <;> rfl

theorem versionUpd_fTop_state (i : Bool) (v : GoString) (st : PomState) (l t : GoString) :
    (versionUpd i v st l t).st.rootVersionUpdated
      = (st.rootVersionUpdated || (versionUpd i v st l t).fTop) := by
  simp only [versionUpd]
  split_ifs <;> simp_all

theorem versionUpd_fPar_state (i : Bool) (v : GoString) (st : PomState) (l t : GoString) :
    (versionUpd i v st l t).st.parentVersionUpdated
      = (st.parentVersionUpdated || (versionUpd i v st l t).fPar) := by
  simp only [versionUpd]
  split_ifs <;> simp_all

theorem versionUpd_fTop_pre (i : Bool) (v : GoString) (st : PomState) (l t : GoString)
    (h : (versionUpd i v st l t).fTop = true) : st.rootVersionUpdated = false := by
  simp only [versionUpd] at h
  split_ifs at h <;> simp_all <;> tauto

theorem versionUpd_fPar_pre (i : Bool) (v : GoString) (st : PomState) (l t : GoString)
    (h : (versionUpd i v st l t).fPar = true) : st.parentVersionUpdated = false := by
  simp only [versionUpd] at h
  split_ifs at h <;> simp_all <;> tauto

theorem versionUpd_ident_out (i : Bool) (v : GoString) (st : PomState) (l t : GoString)
    (h : (versionUpd i v st l t).ident = true) : (versionUpd i v st l t).out = l := by
  simp only [versionUpd] at h ⊢
  split_ifs at h ⊢ <;> simp_all [GoStr.replaceFirst_self]

theorem propUpd_not_fired_out (v : GoString) (st : PomState) (l t out : GoString)
    (h : (propUpd v st l t out).fired = false) : (propUpd v st l t out).out = out := by
  simp only [propUpd] at h ⊢
  split_ifs at h ⊢ <;> simp_all

theorem propUpd_fired_ident_out (v : GoString) (st : PomState) (l t out : GoString)
    (hf : (propUpd v st l t out).fired = true)
    (hi : (propUpd v st l t out).ident = true) : (propUpd v st l t out).out = l := by
  simp only [propUpd] at hf hi ⊢
  split_ifs at hf hi ⊢ <;> simp_all [GoStr.replaceFirst_self]

theorem updatePomLine_identity (i : Bool) (v : GoString) (st : PomState) (line : GoString)
    (h : (updatePomLine i v st line).2.2.identity = true) :
    (updatePomLine i v st line).2.1 = line := by
  simp only [updatePomLine] at h ⊢
  have hv : (versionUpd i v (updFlags st line (trimSpace line)) line (trimSpace line)).ident = true := by
    simp_all
  have hp : (propUpd v (versionUpd i v (updFlags st line (trimSpace line)) line
      (trimSpace line)).st line (trimSpace line)
      (versionUpd i v (updFlags st line (trimSpace line)) line (trimSpace line)).out).ident = true := by
    simp_all
  cases hf : (propUpd v (versionUpd i v (updFlags st line (trimSpace line)) line
      (trimSpace line)).st line (trimSpace line)
      (versionUpd i v (updFlags st line (trimSpace line)) line (trimSpace line)).out).fired with
  | true => exact propUpd_fired_ident_out _ _ _ _ _ hf hp
  | false =>
      rw [propUpd_not_fired_out _ _ _ _ _ hf]
      exact versionUpd_ident_out _ _ _ _ _ hv

theorem updatePomLine_state (i : Bool) (v : GoString) (st : PomState) (line : GoString) :
    (updatePomLine i v st line).1
      = (versionUpd i v (updFlags st line (trimSpace line)) line (trimSpace line)).st := rfl

theorem updatePomLine_fTop (i : Bool) (v : GoString) (st : PomState) (line : GoString) :
    (updatePomLine i v st line).2.2.topLevel
      = (versionUpd i v (updFlags st line (trimSpace line)) line (trimSpace line)).fTop := rfl

theorem updatePomLine_fPar (i : Bool) (v : GoString) (st : PomState) (line : GoString) :
    (updatePomLine i v st line).2.2.parentBlock
      = (versionUpd i v (updFlags st line (trimSpace line)) line (trimSpace line)).fPar := rfl

theorem updatePomLines_identity (i : Bool) (v : GoString) :
    ∀ (ls : List GoString) (st : PomState),
      (updatePomLines i v st ls).2.2.identity = true →
      (updatePomLines i v st ls).2.1 = ls := by
  intro ls
  induction ls with
  | nil => intro st _; rfl
  | cons l rest ih =>
      intro st h
      simp only [updatePomLines] at h ⊢
      have h1 : (updatePomLine i v st l).2.2.identity = true := by
        simp_all
      have h2 : (updatePomLines i v (updatePomLine i v st l).1 rest).2.2.identity = true := by
        simp_all
      rw [updatePomLine_identity i v st l h1, ih _ h2]

theorem updatePomLines_topLevel_le (i : Bool) (v : GoString) :
    ∀ (ls : List GoString) (st : PomState),
      (updatePomLines i v st ls).2.2.topLevel
        ≤ if st.rootVersionUpdated then 0 else 1 := by
  intro ls
  induction ls with
  | nil => intro st; simp [updatePomLines]
  | cons l rest ih =>
      intro st
      simp only [updatePomLines]
      cases hb : (updatePomLine i v st l).2.2.topLevel with
      | true =>
          have hpre : st.rootVersionUpdated = false := by
            rw [updatePomLine_fTop] at hb
            have := versionUpd_fTop_pre _ _ _ _ _ hb
            rwa [updFlags_rootVersionUpdated] at this
          have hpost : (updatePomLine i v st l).1.rootVersionUpdated = true := by
            rw [updatePomLine_state, versionUpd_fTop_state, ← updatePomLine_fTop, hb]
            simp
          have hrest := ih (updatePomLine i v st l).1
          rw [hpost] at hrest
          simp only [hb, hpre] at hrest ⊢
          simp at hrest ⊢
          omega
      | false =>
          have hpost : (updatePomLine i v st l).1.rootVersionUpdated = st.rootVersionUpdated := by
            rw [updatePomLine_state, versionUpd_fTop_state, ← updatePomLine_fTop, hb,
              updFlags_rootVersionUpdated, Bool.or_false]
          have hrest := ih (updatePomLine i v st l).1
          rw [hpost] at hrest
          cases hr : st.rootVersionUpdated <;> simp [hb, hr] at hrest ⊢ <;> omega

theorem updatePomLines_parentBlock_le (i : Bool) (v : GoString) :
    ∀ (ls : List GoString) (st : PomState),
      (updatePomLines i v st ls).2.2.parentBlock
        ≤ if st.parentVersionUpdated then 0 else 1 := by
  intro ls
  induction ls with
  | nil => intro st; simp [updatePomLines]
  | cons l rest ih =>
      intro st
      simp only [updatePomLines]
      cases hb : (updatePomLine i v st l).2.2.parentBlock with
      | true =>
          have hpre : st.parentVersionUpdated = false := by
            rw [updatePomLine_fPar] at hb
            have := versionUpd_fPar_pre _ _ _ _ _ hb
            rwa [updFlags_parentVersionUpdated] at this
          have hpost : (updatePomLine i v st l).1.parentVersionUpdated = true := by
            rw [updatePomLine_state, versionUpd_fPar_state, ← updatePomLine_fPar, hb]
            simp
          have hrest := ih (updatePomLine i v st l).1
          rw [hpost] at hrest
          simp only [hb, hpre] at hrest ⊢
          simp at hrest ⊢
          omega
      | false =>
          have hpost : (updatePomLine i v st l).1.parentVersionUpdated = st.parentVersionUpdated := by
            rw [updatePomLine_state, versionUpd_fPar_state, ← updatePomLine_fPar, hb,
              updFlags_parentVersionUpdated, Bool.or_false]
          have hrest := ih (updatePomLine i v st l).1
          rw [hpost] at hrest
          cases hr : st.parentVersionUpdated <;> simp [hb, hr] at hrest ⊢ <;> omega

/-- A submodule descriptor carrying both a parent-block version field and
its own top-level version field. -/
def submodulePomExample : GoString :=
  gs "<project>\n<parent>\n<version>11.0</version>\n</parent>\n<version>11.0</version>\n</project>"

/-- A descriptor whose properties block carries two distinct property names
both containing the pattern. -/
def propsPomExample : GoString :=
  gs "<project>\n<properties>\n<proezd.version>1.0</proezd.version>\n<proezd.core>2.0</proezd.core>\n</properties>\n</project>"

/-- A submodule descriptor on which a double rewrite differs from a single
rewrite: the first version value contains the literal `<parent>`, so the
first pass consumes the parent-block guard on it and erases the marker,
while the second pass sees the parent block still open at the last line and
rewrites a version field the first pass left alone. -/
def doubleRewritePom : GoString :=
  gs "<version>abc<parent></version>\n<parent>\n<version>7.7</version>"

/-- A root descriptor already at the target version 12.0 everywhere a
rewrite fires. -/
def atTargetPom : GoString :=
  gs "<project>\n<groupId>g</groupId>\n<artifactId>a</artifactId>\n<version>12.0</version>\n<properties>\n<proezd.version>12.0</proezd.version>\n</properties>\n</project>"

/-- C2 counterexample: running `updatePomFile` twice with version `12` on
`doubleRewritePom` produces different bytes than running it once, so the
rewrite is not idempotent on arbitrary descriptor contents. -/
theorem updatePomFile_not_idempotent :
    updatePomFile (gs "12") false (updatePomFile (gs "12") false doubleRewritePom)
      ≠ updatePomFile (gs "12") false doubleRewritePom := by decide

/-- C2 (amended): if every rewrite fired by a pass of `updatePomFile`
replaces a field value that is already the normalized target version (the
`identity` flag of the pass), then the pass returns the contents unchanged,
byte for byte.  In particular a second rewrite of such a tree changes
nothing. -/
theorem updatePomFile_identity_at_target :
    ∀ (version : GoString) (isRootPom : Bool) (content : GoString),
      (updatePomCounts version isRootPom content).identity = true →
      updatePomFile version isRootPom content = content := by
  intro version isRootPom content h
  unfold updatePomFile
  unfold updatePomCounts at h
  simp only []
  rw [updatePomLines_identity _ _ _ _ h]
  show joinLines (splitLines content) = content
  unfold joinLines splitLines
  have hnl : gs "\n" = ['\n'] := rfl
  rw [hnl]
  exact List.intercalate_splitOn content '\n'

/-- Witness for the amended C2 theorem at a concrete at-target root
descriptor. -/
theorem updatePomFile_identity_at_target_witness :
    (updatePomCounts (gs "12") true atTargetPom).identity = true ∧
      updatePomFile (gs "12") true atTargetPom = atTargetPom :=
  ⟨by decide, updatePomFile_identity_at_target (gs "12") true atTargetPom (by decide)⟩

/-- C6: in one pass of `updatePomFile` over any contents, at most one
top-level version field is rewritten (CASE 1 and CASE 2b share the
`rootVersionUpdated` guard) and at most one parent-block version field is
rewritten (CASE 2a, under the independent `parentVersionUpdated` guard);
on the submodule example both guards fire exactly once each, and on the
properties example the unguarded property rewrite fires twice. -/
theorem updatePomFile_rewrite_guards :
    (∀ (version content : GoString) (isRootPom : Bool),
        (updatePomCounts version isRootPom content).topLevel ≤ 1 ∧
        (updatePomCounts version isRootPom content).parentBlock ≤ 1) ∧
    (updatePomCounts (gs "12") false submodulePomExample).topLevel = 1 ∧
    (updatePomCounts (gs "12") false submodulePomExample).parentBlock = 1 ∧
    (updatePomCounts (gs "12") true propsPomExample).property = 2 := by
  refine ⟨fun version content isRootPom => ⟨?_, ?_⟩, by decide, by decide, by decide⟩
  · have := updatePomLines_topLevel_le isRootPom (version ++ gs ".0")
      (splitLines content) initPomState
    simpa [initPomState, updatePomCounts] using this
  · have := updatePomLines_parentBlock_le isRootPom (version ++ gs ".0")
      (splitLines content) initPomState
    simpa [initPomState, updatePomCounts] using this

/-- Decides whether the first tag on a (trimmed) line is a closing tag:
the character right after the first `<` is `/`. -/
def firstTagClosing (t : GoString) : Bool :=
  match firstIdx t (gs "<") with
  | some i => startsWith (t.drop (i + 1)) (gs "/")
  | none => false

theorem startsWith_single_iff (s : GoString) (c : Char) :
    startsWith s [c] = true ↔ s.head? = some c := by
  cases s with
  | nil => simp [startsWith]
  | cons a r => simp [startsWith, List.cons_prefix_cons, eq_comm]

theorem head?_slice_nat (t : GoString) (a b : Nat) (h : a < b) :
    (GoStr.slice t (a : Int) (b : Int)).head? = t[a]? := by
  simp [GoStr.slice, List.head?_drop, List.getElem?_take, h]

theorem slice_nat_self (t : GoString) (a : Nat) :
    GoStr.slice t (a : Int) (a : Int) = [] := by
  simp only [GoStr.slice, Int.toNat_natCast]
  exact List.drop_eq_nil_of_le (List.length_take_le a t)

theorem propUpd_closing_tag (newVersion : GoString) (st : PomState)
    (line t out : GoString) (h : firstTagClosing t = true) :
    propUpd newVersion st line t out = ⟨out, false, true⟩ := by
  unfold firstTagClosing at h
  cases hi : firstIdx t (gs "<") with
  | none => rw [hi] at h; cases h
  | some i =>
      rw [hi] at h
      have hslash : t[i + 1]? = some '/' := by
        have hgsl : gs "/" = ['/'] := rfl
        rw [hgsl] at h
        have h2 := (startsWith_single_iff (t.drop (i + 1)) '/').mp h
        rwa [List.head?_drop] at h2
      cases hj : firstIdx t (gs ">") with
      | none =>
          simp only [propUpd, index, hi, hj]
          split_ifs with h1 h2 h3 h4 <;> try rfl
          exfalso
          simp only [Bool.and_eq_true, decide_eq_true_eq] at h2
          omega
      | some j =>
          simp only [propUpd, index, hi, hj]
          split_ifs with h1 h2 h3 h4 <;> try rfl
          exfalso
          simp only [Bool.and_eq_true, decide_eq_true_eq] at h2
          have hij : i < j := by exact_mod_cast h2.2
          have hcast : ((i : Int) + 1) = ((i + 1 : Nat) : Int) := by push_cast; ring
          rcases Nat.lt_or_ge (i + 1) j with hlt | hge
          · have hhead : (GoStr.slice t ((i : Int) + 1) (j : Int)).head? = some '/' := by
              rw [hcast, head?_slice_nat t (i + 1) j hlt]
              exact hslash
            have hsw : startsWith (GoStr.slice t ((i : Int) + 1) (j : Int)) (gs "/") = true := by
              have hgsl : gs "/" = ['/'] := rfl
              rw [hgsl]
              exact (startsWith_single_iff _ _).mpr hhead
            rw [hsw] at h3
            simpa using h3
          · have hj1 : j = i + 1 := by omega
            have hempty : GoStr.slice t ((i : Int) + 1) (j : Int) = [] := by
              rw [hcast, hj1]
              exact slice_nat_self t (i + 1)
            rw [hempty] at h3
            have hcf : contains ([] : GoString) (gs "proezd") = false := by decide
            rw [hcf] at h3
            simpa using h3

/-- C7: inside a properties block the property rewriter never treats a
closing tag as a value-bearing opening tag.  If the first tag of the
trimmed line is a closing tag (its name begins with `/`), the CASE 3 block
of `updatePomFile` leaves the line untouched and reports no fire, whatever
the context state — even when the closing tag's name contains the property
pattern as a substring. -/
theorem propertyRewriter_closing_tag_safe :
    ∀ (newVersion : GoString) (st st2 : PomState) (line out : GoString) (isRootPom : Bool),
      firstTagClosing (trimSpace line) = true →
      propUpd newVersion st line (trimSpace line) out = ⟨out, false, true⟩ ∧
        (updatePomLine isRootPom newVersion st2 line).2.2.property = false := by
  intro newVersion st st2 line out isRootPom h
  refine ⟨propUpd_closing_tag newVersion st line (trimSpace line) out h, ?_⟩
  simp only [updatePomLine]
  rw [propUpd_closing_tag newVersion _ line (trimSpace line) _ h]

/-- Witness for C7 on a concrete closing-tag line whose tag name contains
the property pattern. -/
theorem propertyRewriter_closing_tag_safe_witness :
    firstTagClosing (trimSpace (gs "        </proezd.version>")) = true ∧
      propUpd (gs "12.0")
          { initPomState with insideProperties := true }
          (gs "        </proezd.version>")
          (trimSpace (gs "        </proezd.version>"))
          (gs "        </proezd.version>")
        = ⟨gs "        </proezd.version>", false, true⟩ :=
  ⟨by decide,
    (propertyRewriter_closing_tag_safe (gs "12.0")
      { initPomState with insideProperties := true } initPomState
      (gs "        </proezd.version>") (gs "        </proezd.version>") true
      (by decide)).1⟩

end Main

open GoStr

/-- ASCII letter, the `[A-Za-z]` class of the task-id pattern. -/
def isAsciiLetter (c : Char) : Bool :=
  ('A' ≤ c && c ≤ 'Z') || ('a' ≤ c && c ≤ 'z')

/-- ASCII digit, the `\d` class of the task-id pattern. -/
def isAsciiDigit (c : Char) : Bool := '0' ≤ c && c ≤ '9'

/-- Matching of the regular expression `([A-Za-z]{2,10})-(\d{5,6})` at the
start of `s`, returning the full match (group 0) when it succeeds.  Because
letters, `-` and digits are disjoint classes, the greedy letter quantifier
can only succeed by consuming the entire maximal letter run (which must have
length 2..10 and be followed by `-`), and the greedy digit quantifier takes
six digits when available, else five. -/
def matchTaskIdAt (s : GoString) : Option GoString :=
  let letters := s.takeWhile isAsciiLetter
  if 2 ≤ letters.length && letters.length ≤ 10 then
    match s.drop letters.length with
    | '-' :: rest =>
        let digits := rest.takeWhile isAsciiDigit
        if 5 ≤ digits.length then some (letters ++ '-' :: digits.take 6)
        else none
    | _ => none
  else none

theorem matchTaskIdAt_length_pos (s m : GoString) (h : matchTaskIdAt s = some m) :
    0 < m.length := by
  simp only [matchTaskIdAt] at h
  split_ifs at h
  split at h
  case _ => split_ifs at h; · injection h with h2; subst h2; simp
  case _ => cases h

/-- Model of Go `regexp.FindAllString(s, -1)` for the task-id pattern:
leftmost non-overlapping matches, resuming after each match's end. -/
def findAllTaskIds : GoString → List GoString
  | [] => []
  | c :: rest =>
      match hm : matchTaskIdAt (c :: rest) with
      | some m => m :: findAllTaskIds ((c :: rest).drop m.length)
      | none => findAllTaskIds rest
termination_by s => s.length
decreasing_by
  · simp only [List.length_drop]
    have := matchTaskIdAt_length_pos _ _ hm
    simp
    omega
  · simp

/-- A parsed commit record: hash, subject, and the extracted task id
(empty when none was found), as in `CommitInfo` of the git package. -/
structure CommitInfo where
  sha : GoString
  message : GoString
  taskID : GoString
deriving Repr, DecidableEq

/-- Inserting a key into a Go `map[string]bool` used as a set, observed as
the list of keys in insertion order. -/
def insertTask (s : List GoString) (t : GoString) : List GoString :=
  if t ∈ s then s else s ++ [t]

/-- Accumulate the non-empty task ids of a commit list into a task set,
as the `for _, commit := range ... { if commit.TaskID != "" { set[...] = true } }`
loops of `CreateReleaseNotes` do. -/
def addTasks (acc : List GoString) (commits : List CommitInfo) : List GoString :=
  commits.foldl (fun s c => if c.taskID = [] then s else insertTask s c.taskID) acc

/-- Accumulate a list of (non-empty) task ids into a task set. -/
def addIDs (acc : List GoString) (ids : List GoString) : List GoString :=
  ids.foldl insertTask acc

namespace GitOld

/-
Embedding of `GetCommitsBetween` from the earlier generation of the git
package (src/unnamed/part_002): the task-id pattern is anchored at the start
of the message (`^([A-Za-z]{2,10})-(\d{5,6})`) and `FindStringSubmatch`
yields at most one match per message.  The function is modelled on the raw
output of `git log --pretty=format:%H|%s from..to`.
-/

/-- Task id extracted from one commit message under the anchored policy:
`matches[0]` of `FindStringSubmatch`, or the empty string. -/
def extractTaskID (msg : GoString) : GoString :=
  match matchTaskIdAt msg with
  | some m => m
  | none => []

/-- Parse one `sha|subject` line of the log output; lines without a `|`
separator are skipped by the loop. -/
def parseLine (line : GoString) : Option CommitInfo :=
  if line = [] then none
  else
    match splitN2 line '|' with
    | [sha, msg] => some { sha := sha, message := msg, taskID := extractTaskID msg }
    | _ => none

/-- Embedding of the anchored `GetCommitsBetween` as a function of the raw
log output. -/
def GetCommitsBetween (output : GoString) : List CommitInfo :=
  if output.length = 0 then []
  else (splitLines (trimSpace output)).filterMap parseLine

end GitOld

namespace Git

/-
Embedding of the current git module (`git/git.go`).  Subprocess calls are
abstracted by `RepoEnv`: each field returns the (trimmed) output of the
corresponding git command in one repository, `none` meaning the command
failed.
-/

/-- The observable git state of one service repository. -/
structure RepoEnv where
  /-- Does `git rev-parse --verify origin/<name>` succeed? -/
  remoteBranch : GoString → Bool
  /-- Does `git rev-parse --verify <name>` succeed (tag form)? -/
  tagRef : GoString → Bool
  /-- Trimmed output of `git merge-base origin/<branch> origin/develop`. -/
  mergeBase : GoString → Option GoString
  /-- Raw output of `git tag --merged origin/<branch> <pattern>`. -/
  tagsMerged : GoString → GoString → Option GoString
  /-- Trimmed output of `git rev-parse <ref>`. -/
  revParse : GoString → Option GoString
  /-- Trimmed output of `git rev-list -n 1 <tag>`. -/
  revList1 : GoString → Option GoString
  /-- Raw output of `git log --pretty=format:%H|%s <from>..<to>`. -/
  log : GoString → GoString → Option GoString

/-- Embedding of `findRefWithBothSeparators`: build the list of candidate
names from the separator found in the pattern, return the first that
resolves. -/
def findRefWithBothSeparators (env : RepoEnv) (refType : GoString)
    (pattern : GoString) : Option GoString :=
  let namesToTry : List GoString :=
    if contains pattern (gs "/") then
      [replaceAllChar pattern '/' '-', pattern]
    else if contains pattern (gs "-") then
      [pattern, replaceAllChar pattern '-' '/']
    else [pattern]
  namesToTry.find? fun name =>
    if refType = gs "branch" then env.remoteBranch name else env.tagRef name

/-- Embedding of `GetPreviousReleaseBranch`: for `currentVersion - 1 < 1`
fail; otherwise try `release/<n-1>` under both separator conventions. -/
def GetPreviousReleaseBranch (env : RepoEnv) (currentVersion : Int) :
    Option GoString :=
  let previousVersion := currentVersion - 1
  if previousVersion < 1 then none
  else findRefWithBothSeparators env (gs "branch")
    (gs "release/" ++ intStr previousVersion)

/-- The lines of one `git tag --merged` invocation exactly as
`GetLastTagInBranch` sees them: on success with non-empty raw output,
trim and split on newlines; otherwise nothing. -/
def rawTagLines (o : Option GoString) : List GoString :=
  match o with
  | some output => if 0 < output.length then splitLines (trimSpace output) else []
  | none => []

/-- Non-empty tag lines of one invocation. -/
def parsedTagLines (o : Option GoString) : List GoString :=
  (rawTagLines o).filter fun tag => tag ≠ []

/-- The `allTags` accumulator of `GetLastTagInBranch`: the non-empty tags of
the `release/*` pattern, then those of the `release-*` pattern that are not
already present (`contains` dedup). -/
def mergedReleaseTags (env : RepoEnv) (branchName : GoString) : List GoString :=
  let all1 := parsedTagLines (env.tagsMerged branchName (gs "release/*"))
  all1 ++ (rawTagLines (env.tagsMerged branchName (gs "release-*"))).filter
    (fun tag => tag ≠ [] && !(decide (tag ∈ all1)))

/-- Embedding of `GetLastTagInBranch`: union both patterns' tags, fail when
empty, else sort and return the last (lexicographically greatest). -/
def GetLastTagInBranch (env : RepoEnv) (branchName : GoString) : Option GoString :=
  let allTags := mergedReleaseTags env branchName
  if allTags = [] then none
  else some ((sortStrings allTags).getLastD [])

/-- The marker `CreateReleaseNotes` uses for one service: the last release
tag of the previous branch, or on failure the branch tip ref
`origin/<branch>` itself. -/
def markerOf (env : RepoEnv) (prevBranch : GoString) : GoString :=
  match GetLastTagInBranch env prevBranch with
  | some t => t
  | none => gs "origin/" ++ prevBranch

/-- Parse one `sha|subject` log line of the current `GetCommitsBetween`:
every task-id occurrence found anywhere in the message yields its own
`CommitInfo` carrying that id, followed by the original record whose
`TaskID` stays empty (it is never assigned in this version). -/
def parseLineAll (line : GoString) : List CommitInfo :=
  if line = [] then []
  else
    match splitN2 line '|' with
    | [sha, msg] =>
        (findAllTaskIds msg).map
          (fun tid => { sha := sha, message := msg, taskID := tid })
          ++ [{ sha := sha, message := msg, taskID := [] }]
    | _ => []

/-- Embedding of the current `GetCommitsBetween` (unanchored, any
occurrence, several per commit) as a function of the raw log output. -/
def GetCommitsBetween (output : GoString) : List CommitInfo :=
  if output.length = 0 then []
  else ((splitLines (trimSpace output)).map parseLineAll).flatten

/-- Per-service statistics row of the release notes. -/
structure ServiceStats where
  totalCommits : Nat
  tasksFound : Nat
  lastTag : GoString
deriving Repr, DecidableEq

/-- The per-service body of the `CreateReleaseNotes` loop: resolve the
branch-start commit, the marker and its commit, then the two log ranges.
A failure before the first range contributes nothing and no stats row; a
failure on the second range still contributes the between-tasks already
added (exactly as the Go `continue` placement does). -/
def processService (env : RepoEnv) (prevBranch : GoString) :
    List GoString × List GoString × Option ServiceStats :=
  match env.mergeBase prevBranch with
  | none => ([], [], none)
  | some prevBranchStart =>
      let lastTag := markerOf env prevBranch
      match (if startsWith lastTag (gs "origin/") then env.revParse lastTag
             else env.revList1 lastTag) with
      | none => ([], [], none)
      | some lastCommit =>
          match env.log lastCommit (gs "HEAD") with
          | none => ([], [], none)
          | some outB =>
              let commitsBetween := GetCommitsBetween outB
              let betweenIDs :=
                (commitsBetween.filter (fun c => c.taskID ≠ [])).map (·.taskID)
              match env.log prevBranchStart lastCommit with
              | none => (betweenIDs, [], none)
              | some outP =>
                  let commitsPrev := GetCommitsBetween outP
                  let prevIDs :=
                    (commitsPrev.filter (fun c => c.taskID ≠ [])).map (·.taskID)
                  (betweenIDs, prevIDs,
                    some { totalCommits := commitsBetween.length,
                           tasksFound := betweenIDs.length,
                           lastTag := lastTag })

/-- Assignment into the `serviceStats` map, observed as an association list
in insertion order. -/
def setStat : List (GoString × ServiceStats) → GoString → ServiceStats →
    List (GoString × ServiceStats)
  | [], k, v => [(k, v)]
  | (k', v') :: rest, k, v =>
      if k' = k then (k, v) :: rest else (k', v') :: setStat rest k v

/-- The service loop of `CreateReleaseNotes`: fold `processService` over the
services in iteration order, accumulating the two global task sets and the
statistics map. -/
def collectServices (dirs : List (GoString × RepoEnv)) (prevBranch : GoString) :
    List GoString × List GoString × List (GoString × ServiceStats) :=
  dirs.foldl
    (fun acc entry =>
      let r := processService entry.2 prevBranch
      (addIDs acc.1 r.1,
       addIDs acc.2.1 r.2.1,
       match r.2.2 with
       | some st => setStat acc.2.2 entry.1 st
       | none => acc.2.2))
    ([], [], [])

/-- The sorted list of new task ids rendered into the artifact:
`between − inPrevious`, sorted ascending. -/
def newTaskIDs (between inPrev : List GoString) : List GoString :=
  sortStrings (between.filter fun t => !(decide (t ∈ inPrev)))

/-- Header of the release notes artifact. -/
def releaseNotesHeader (version : Int) : GoString :=
  let c1 := gs "Release Notes for Version " ++ intStr version ++ gs "\n"
  c1 ++ (gs "=" ++ repeatChar '=' (c1.length - 1)) ++ gs "\n\n"

/-- The minimal artifact written when the previous release branch cannot be
resolved. -/
def minimalReleaseNotes (version : Int) : GoString :=
  releaseNotesHeader version
    ++ gs "No previous release branch found to compare against.\n"

/-- The tasks section of the artifact: one line per new task id (prefixed
when a url prefix is configured) and a total, or the explicit no-new-tasks
line. -/
def tasksSection (taskIDs : List GoString) (taskURLPrefix : GoString) : GoString :=
  if taskIDs ≠ [] then
    gs "Tasks included in this release:\n" ++ repeatChar '-' 30 ++ gs "\n\n"
      ++ (taskIDs.map fun taskID =>
            if taskURLPrefix ≠ [] then taskURLPrefix ++ taskID ++ gs "\n"
            else taskID ++ gs "\n").flatten
      ++ gs "\nTotal new tasks: " ++ intStr taskIDs.length ++ gs "\n"
  else gs "No new tasks with IDs found in commit messages.\n"

/-- Lookup in the `serviceStats` map (keys are unique service names). -/
def lookupStat (m : List (GoString × ServiceStats)) (k : GoString) : ServiceStats :=
  match m.find? (fun p => decide (p.1 = k)) with
  | some p => p.2
  | none => { totalCommits := 0, tasksFound := 0, lastTag := [] }

/-- The statistics section of the artifact, rows sorted by service name. -/
def statsSection (stats : List (GoString × ServiceStats)) : GoString :=
  gs "\n\nService Statistics:\n" ++ repeatChar '-' 50 ++ gs "\n"
    ++ padRight (gs "Service") 30 ++ gs " " ++ padRight (gs "Last Tag") 20
    ++ gs " " ++ gs "Stats" ++ gs "\n"
    ++ repeatChar '-' 50 ++ gs "\n"
    ++ ((sortStrings (stats.map (·.1))).map fun service =>
          let st := lookupStat stats service
          padRight service 30 ++ gs " " ++ padRight st.lastTag 20 ++ gs " "
            ++ intStr (st.totalCommits : Int) ++ gs " commits, "
            ++ intStr (st.tasksFound : Int) ++ gs " tasks" ++ gs "\n").flatten

/-- Embedding of `CreateReleaseNotes` as the artifact contents it writes.
`dirs` is the services map in one concrete iteration order (Go map order is
unspecified); the previous release branch is resolved against the first
entry of that order only. -/
def CreateReleaseNotes (dirs : List (GoString × RepoEnv)) (version : Int)
    (taskURLPrefix : GoString) : GoString :=
  match dirs.head? with
  | none => minimalReleaseNotes version
  | some entry =>
      match GetPreviousReleaseBranch entry.2 version with
      | none => minimalReleaseNotes version
      | some prevBranch =>
          let acc := collectServices dirs prevBranch
          let taskIDs := newTaskIDs acc.1 acc.2.1
          releaseNotesHeader version
            ++ gs "Comparing with previous release branch: " ++ prevBranch
            ++ gs "\n\n"
            ++ tasksSection taskIDs taskURLPrefix
            ++ statsSection acc.2.2

end Git

/-- The raw log output of Scenario 2: three commits with the spec's
messages. -/
def scenarioLog : GoString :=
  gs "a1|ABC-12345 fix\nb2|no id here\nc3|xy-99999z more"

/-- The task set the anchored `GetCommitsBetween` extracts from the
scenario log, accumulated the way `CreateReleaseNotes` accumulates it. -/
def scenarioTasks : List GoString :=
  addTasks [] (GitOld.GetCommitsBetween scenarioLog)

/-- C3 counterexample: under the anchored-at-start policy the extracted set
of Scenario 2 is not `{"ABC-12345"}` — the message `"xy-99999z more"` also
yields `"xy-99999"`, because the pattern is anchored on the left but not
delimited on the right. -/
theorem scenarioTasks_ne_spec :
    scenarioTasks ≠ [gs "ABC-12345"] ∧ gs "xy-99999" ∈ scenarioTasks := by
  constructor
  · decide
  · decide

theorem prefixOf_takeWhile_take (p : Char → Bool) (s : GoString) (n : Nat) :
    (s.takeWhile p).take n <+: s :=
  List.IsPrefix.trans ( List.take_prefix _ _) ( List.takeWhile_prefix _)

theorem dropWhile_eq_drop (p : Char → Bool) (l : GoString) :
    l.dropWhile p = l.drop (l.takeWhile p).length := by
  induction l with
  | nil => rfl
  | cons a t ih =>
      by_cases h : p a
      · simp [List.dropWhile_cons, List.takeWhile_cons, h, ih]
      · simp [List.dropWhile_cons, List.takeWhile_cons, h]

/-- C3 (amended): the anchored extractor yields at most one id per message,
every extracted id is a prefix of its message (the anchor), and the
extracted set of Scenario 2 is exactly `{"ABC-12345", "xy-99999"}`. -/
theorem anchored_extraction_spec :
    scenarioTasks = [gs "ABC-12345", gs "xy-99999"] ∧
      ∀ (msg : GoString), GitOld.extractTaskID msg ≠ [] →
        GitOld.extractTaskID msg <+: msg := by
  refine ⟨by decide, fun msg h => ?_⟩
  unfold GitOld.extractTaskID at h ⊢
  cases hm : matchTaskIdAt msg with
  | none => rw [hm] at h; simp at h
  | some m =>
      show m <+: msg
      simp only [matchTaskIdAt] at hm
      split_ifs at hm
      rename_i hlen
      split at hm
      case _ c rest hdrop =>
        split_ifs at hm
        injection hm with hm
        subst hm
        have hsplit : msg.takeWhile isAsciiLetter ++ '-' :: rest = msg := by
          conv_rhs => rw [← List.takeWhile_append_dropWhile isAsciiLetter msg]
          rw [dropWhile_eq_drop, hdrop]
        conv_rhs => rw [← hsplit]
        rw [List.prefix_append_right_inj, List.cons_prefix_cons]
        exact ⟨rfl, prefixOf_takeWhile_take isAsciiDigit rest 6⟩
      case _ => cases hm

/-- Witness for the amended C3 theorem: the anchored extractor applied to
the third scenario message. -/
theorem anchored_extraction_spec_witness :
    GitOld.extractTaskID (gs "xy-99999z more") ≠ [] ∧
      GitOld.extractTaskID (gs "xy-99999z more") <+: gs "xy-99999z more" :=
  ⟨by decide, anchored_extraction_spec.2 (gs "xy-99999z more") (by decide)⟩

theorem contains_slash_release (x : GoString) :
    contains (gs "release/" ++ x) (gs "/") = true := by
  unfold GoStr.contains
  rw [decide_eq_true_iff]
  exact List.IsInfix.trans (by decide)
    (List.prefix_append (gs "release/") x).isInfix

/-- The hyphen-separated candidate name for the previous release branch. -/
def dashReleaseName (version : Int) : GoString :=
  replaceAllChar (gs "release/" ++ intStr (version - 1)) '/' '-'

/-- The slash-separated candidate name for the previous release branch. -/
def slashReleaseName (version : Int) : GoString :=
  gs "release/" ++ intStr (version - 1)

theorem getPreviousReleaseBranch_cases (env : Git.RepoEnv) (version : Int) :
    Git.GetPreviousReleaseBranch env version =
      if version - 1 < 1 then none
      else if env.remoteBranch (dashReleaseName version) then
        some (dashReleaseName version)
      else if env.remoteBranch (slashReleaseName version) then
        some (slashReleaseName version)
      else none := by
  unfold Git.GetPreviousReleaseBranch Git.findRefWithBothSeparators
  simp only [contains_slash_release, if_true, List.find?, dashReleaseName,
    slashReleaseName]
  split_ifs <;> simp_all [List.find?]

/-- C4: previous-lineage resolution fails exactly when `version ≤ 1` or
neither the hyphen-separated nor the slash-separated remote ref for
`release/<version-1>` exists; for `version ≥ 2` with a ref in either
separator form it resolves. -/
theorem getPreviousReleaseBranch_spec :
    ∀ (env : Git.RepoEnv) (version : Int),
      (Git.GetPreviousReleaseBranch env version = none ↔
        version ≤ 1 ∨
          (env.remoteBranch (dashReleaseName version) = false ∧
           env.remoteBranch (slashReleaseName version) = false)) ∧
      (2 ≤ version →
        (env.remoteBranch (dashReleaseName version) = true ∨
         env.remoteBranch (slashReleaseName version) = true) →
        ∃ b, Git.GetPreviousReleaseBranch env version = some b) := by
  intro env version
  rw [getPreviousReleaseBranch_cases]
  constructor
  · split_ifs with h1 h2 h3 <;> simp_all <;> omega
  · intro hv href
    split_ifs with h1 h2 h3
    · omega
    · exact ⟨_, rfl⟩
    · exact ⟨_, rfl⟩
    · rcases href with h | h
      · exact absurd h (by simp_all)
      · exact absurd h (by simp_all)

/-- A repository whose only remote ref is the hyphen-separated
`release-4`. -/
def envDashOnly : Git.RepoEnv :=
  { remoteBranch := fun b => b == gs "release-4", tagRef := fun _ => false,
    mergeBase := fun _ => none, tagsMerged := fun _ _ => none,
    revParse := fun _ => none, revList1 := fun _ => none,
    log := fun _ _ => none }

/-- Witness for C4: with version 5 and only the hyphen-separated ref
`release-4` present, resolution succeeds. -/
theorem getPreviousReleaseBranch_spec_witness :
    (2 ≤ (5 : Int) ∧ envDashOnly.remoteBranch (dashReleaseName 5) = true) ∧
      ∃ b, Git.GetPreviousReleaseBranch envDashOnly 5 = some b :=
  ⟨⟨by omega, by decide⟩,
    (getPreviousReleaseBranch_spec envDashOnly 5).2 (by omega)
      (Or.inl (by decide))⟩

theorem getLastD_mem_of_ne_nil : ∀ (l : List GoString) (d : GoString),
    l ≠ [] → l.getLastD d ∈ l := by
  intro l
  induction l with
  | nil => intro d h; exact absurd rfl h
  | cons a r ih =>
      intro d _
      cases hr : r with
      | nil => simp [List.getLastD]
      | cons b r2 =>
          subst hr
          rw [List.getLastD_cons]
          exact List.mem_cons_of_mem a (ih a (by simp))

theorem sorted_le_getLastD : ∀ (l : List GoString) (d : GoString),
    l.Sorted (· ≤ ·) → ∀ x ∈ l, x ≤ l.getLastD d := by
  intro l
  induction l with
  | nil => intro d _ x hx; cases hx
  | cons a r ih =>
      intro d hs x hx
      rw [List.sorted_cons] at hs
      cases hr : r with
      | nil =>
          subst hr
          simp at hx
          simp [hx, List.getLastD]
      | cons b r2 =>
          subst hr
          rw [List.getLastD_cons]
          rcases List.mem_cons.mp hx with rfl | hmem
          · exact hs.1 _ (getLastD_mem_of_ne_nil _ x (by simp))
          · exact ih a hs.2 x hmem

/-- C5: per service, the marker used by release-note synthesis is the
lexicographically greatest of the tags reachable from the previous lineage
branch under both separator conventions (distinct results unioned); when no
such tag exists, the marker falls back to the branch tip ref
`origin/<branch>`.  The last conjunct ties the marker to the statistics row
recorded by the per-service processing of `CreateReleaseNotes`. -/
theorem lastTag_marker_spec :
    ∀ (env : Git.RepoEnv) (branch : GoString),
      (Git.mergedReleaseTags env branch ≠ [] →
        Git.GetLastTagInBranch env branch = some (Git.markerOf env branch) ∧
        Git.markerOf env branch ∈ Git.mergedReleaseTags env branch ∧
        ∀ t ∈ Git.mergedReleaseTags env branch, t ≤ Git.markerOf env branch) ∧
      (Git.mergedReleaseTags env branch = [] →
        Git.GetLastTagInBranch env branch = none ∧
        Git.markerOf env branch = gs "origin/" ++ branch) ∧
      (∀ t, t ∈ Git.parsedTagLines (env.tagsMerged branch (gs "release/*")) ∨
            t ∈ Git.parsedTagLines (env.tagsMerged branch (gs "release-*")) →
            t ∈ Git.mergedReleaseTags env branch) ∧
      (∀ st, (Git.processService env branch).2.2 = some st →
            st.lastTag = Git.markerOf env branch) := by
  intro env branch
  refine ⟨?_, ?_, ?_, ?_⟩
  · intro hne
    have hlast : Git.GetLastTagInBranch env branch
        = some ((sortStrings (Git.mergedReleaseTags env branch)).getLastD []) := by
      unfold Git.GetLastTagInBranch
      rw [if_neg hne]
    have hmarker : Git.markerOf env branch
        = (sortStrings (Git.mergedReleaseTags env branch)).getLastD [] := by
      unfold Git.markerOf
      rw [hlast]
    have hsne : sortStrings (Git.mergedReleaseTags env branch) ≠ [] := by
      intro hz
      have hp := sortStrings_perm (Git.mergedReleaseTags env branch)
      rw [hz] at hp
      exact hne hp.symm.eq_nil
    refine ⟨by rw [hlast, hmarker], ?_, ?_⟩
    · rw [hmarker]
      exact (sortStrings_perm _).subset (getLastD_mem_of_ne_nil _ [] hsne)
    · intro t ht
      rw [hmarker]
      exact sorted_le_getLastD _ [] (sortStrings_sorted _) t
        ((sortStrings_perm _).mem_iff.mpr ht)
  · intro he
    have hlast : Git.GetLastTagInBranch env branch = none := by
      unfold Git.GetLastTagInBranch
      rw [if_pos he]
    refine ⟨hlast, ?_⟩
    unfold Git.markerOf
    rw [hlast]
  · intro t ht
    unfold Git.mergedReleaseTags
    rcases ht with h1 | h2
    · exact List.mem_append_left _ h1
    · by_cases hin : t ∈ Git.parsedTagLines (env.tagsMerged branch (gs "release/*"))
      · exact List.mem_append_left _ hin
      · refine List.mem_append_right _ ?_
        unfold Git.parsedTagLines at h2
        rw [List.mem_filter] at h2
        rw [List.mem_filter]
        refine ⟨h2.1, ?_⟩
        simp only [Bool.and_eq_true, Bool.not_eq_true']
        refine ⟨h2.2, ?_⟩
        simpa [Git.parsedTagLines] using hin
  · intro st hst
    unfold Git.processService at hst
    cases h1 : env.mergeBase branch with
    | none => rw [h1] at hst; cases hst
    | some pbs =>
        rw [h1] at hst
        simp only [] at hst
        cases h2 : (if startsWith (Git.markerOf env branch) (gs "origin/")
            then env.revParse (Git.markerOf env branch)
            else env.revList1 (Git.markerOf env branch)) with
        | none => rw [h2] at hst; cases hst
        | some lastCommit =>
            rw [h2] at hst
            simp only [] at hst
            cases h3 : env.log lastCommit (gs "HEAD") with
            | none => rw [h3] at hst; cases hst
            | some outB =>
                rw [h3] at hst
                simp only [] at hst
                cases h4 : env.log pbs lastCommit with
                | none => rw [h4] at hst; cases hst
                | some outP =>
                    rw [h4] at hst
                    simp only [] at hst
                    injection hst with hst
                    subst hst
                    rfl

/-- A repository carrying release tags under both separator conventions. -/
def envTagged : Git.RepoEnv :=
  { remoteBranch := fun _ => false, tagRef := fun _ => false,
    mergeBase := fun _ => none,
    tagsMerged := fun _ pat =>
      if pat = gs "release/*" then some (gs "release/4.0\nrelease/4.1")
      else if pat = gs "release-*" then some (gs "release-4.2")
      else none,
    revParse := fun _ => none, revList1 := fun _ => none,
    log := fun _ _ => none }

/-- Witness for C5 on a repository with three tags across both separator
forms: the marker is the lexicographically greatest of the union. -/
theorem lastTag_marker_spec_witness :
    Git.mergedReleaseTags envTagged (gs "release/4") ≠ [] ∧
      Git.GetLastTagInBranch envTagged (gs "release/4")
        = some (Git.markerOf envTagged (gs "release/4")) ∧
      Git.markerOf envTagged (gs "release/4") = gs "release/4.1" :=
  ⟨by decide,
    ((lastTag_marker_spec envTagged (gs "release/4")).1 (by decide)).1,
    by decide⟩

theorem mem_insertTask (x t : GoString) (s : List GoString) :
    x ∈ insertTask s t ↔ x ∈ s ∨ x = t := by
  unfold insertTask
  split_ifs with h
  · constructor
    · exact Or.inl
    · rintro (hx | rfl)
      · exact hx
      · exact h
  · simp

theorem nodup_insertTask (t : GoString) (s : List GoString) (h : s.Nodup) :
    (insertTask s t).Nodup := by
  unfold insertTask
  split_ifs with hmem
  · exact h
  · simpa [List.nodup_append, h] using hmem

theorem mem_addIDs (x : GoString) : ∀ (ids : List GoString) (acc : List GoString),
    x ∈ addIDs acc ids ↔ x ∈ acc ∨ x ∈ ids := by
  intro ids
  induction ids with
  | nil => intro acc; simp [addIDs]
  | cons t rest ih =>
      intro acc
      show x ∈ addIDs (insertTask acc t) rest ↔ _
      rw [ih, mem_insertTask]
      constructor
      · rintro ((hx | rfl) | hx)
        · exact Or.inl hx
        · exact Or.inr (List.mem_cons_self _ _)
        · exact Or.inr (List.mem_cons_of_mem _ hx)
      · rintro (hx | hx)
        · exact Or.inl (Or.inl hx)
        · rcases List.mem_cons.mp hx with rfl | hx
          · exact Or.inl (Or.inr rfl)
          · exact Or.inr hx

theorem nodup_addIDs : ∀ (ids : List GoString) (acc : List GoString),
    acc.Nodup → (addIDs acc ids).Nodup := by
  intro ids
  induction ids with
  | nil => intro acc h; exact h
  | cons t rest ih =>
      intro acc h
      exact ih (insertTask acc t) (nodup_insertTask t acc h)

theorem collectServices_between_mem (prevBranch : GoString) (x : GoString) :
    ∀ (dirs : List (GoString × Git.RepoEnv)) (acc : List GoString × List GoString ×
        List (GoString × Git.ServiceStats)),
      (x ∈ (dirs.foldl
        (fun acc entry =>
          let r := Git.processService entry.2 prevBranch
          (addIDs acc.1 r.1,
           addIDs acc.2.1 r.2.1,
           match r.2.2 with
           | some st => Git.setStat acc.2.2 entry.1 st
           | none => acc.2.2)) acc).1 ↔
        x ∈ acc.1 ∨ ∃ e ∈ dirs, x ∈ (Git.processService e.2 prevBranch).1) := by
  intro dirs
  induction dirs with
  | nil =>
      intro acc
      simp only [List.foldl_nil, List.not_mem_nil, false_and, exists_false, or_false]
  | cons e rest ih =>
      intro acc
      rw [List.foldl_cons, ih, mem_addIDs]
      constructor
      · rintro ((hx | hx) | ⟨e2, he2, hx⟩)
        · exact Or.inl hx
        · exact Or.inr ⟨e, List.mem_cons_self _ _, hx⟩
        · exact Or.inr ⟨e2, List.mem_cons_of_mem _ he2, hx⟩
      · rintro (hx | ⟨e2, he2, hx⟩)
        · exact Or.inl (Or.inl hx)
        · rcases List.mem_cons.mp he2 with rfl | he2
          · exact Or.inl (Or.inr hx)
          · exact Or.inr ⟨e2, he2, hx⟩

theorem collectServices_inPrev_mem (prevBranch : GoString) (x : GoString) :
    ∀ (dirs : List (GoString × Git.RepoEnv)) (acc : List GoString × List GoString ×
        List (GoString × Git.ServiceStats)),
      (x ∈ (dirs.foldl
        (fun acc entry =>
          let r := Git.processService entry.2 prevBranch
          (addIDs acc.1 r.1,
           addIDs acc.2.1 r.2.1,
           match r.2.2 with
           | some st => Git.setStat acc.2.2 entry.1 st
           | none => acc.2.2)) acc).2.1 ↔
        x ∈ acc.2.1 ∨ ∃ e ∈ dirs, x ∈ (Git.processService e.2 prevBranch).2.1) := by
  intro dirs
  induction dirs with
  | nil =>
      intro acc
      simp only [List.foldl_nil, List.not_mem_nil, false_and, exists_false, or_false]
  | cons e rest ih =>
      intro acc
      rw [List.foldl_cons, ih, mem_addIDs]
      constructor
      · rintro ((hx | hx) | ⟨e2, he2, hx⟩)
        · exact Or.inl hx
        · exact Or.inr ⟨e, List.mem_cons_self _ _, hx⟩
        · exact Or.inr ⟨e2, List.mem_cons_of_mem _ he2, hx⟩
      · rintro (hx | ⟨e2, he2, hx⟩)
        · exact Or.inl (Or.inl hx)
        · rcases List.mem_cons.mp he2 with rfl | he2
          · exact Or.inl (Or.inr hx)
          · exact Or.inr ⟨e2, he2, hx⟩

theorem collectServices_between_nodup (prevBranch : GoString) :
    ∀ (dirs : List (GoString × Git.RepoEnv)) (acc : List GoString × List GoString ×
        List (GoString × Git.ServiceStats)), acc.1.Nodup →
      ((dirs.foldl
        (fun acc entry =>
          let r := Git.processService entry.2 prevBranch
          (addIDs acc.1 r.1,
           addIDs acc.2.1 r.2.1,
           match r.2.2 with
           | some st => Git.setStat acc.2.2 entry.1 st
           | none => acc.2.2)) acc).1).Nodup := by
  intro dirs
  induction dirs with
  | nil => intro acc h; exact h
  | cons e rest ih =>
      intro acc h
      rw [List.foldl_cons]
      exact ih _ (nodup_addIDs _ _ h)

theorem count_eq_one_of_mem_nodup (l : List GoString) (t : GoString)
    (h : l.Nodup) (hm : t ∈ l) : List.count t l = 1 := by
  induction l with
  | nil => cases hm
  | cons a r ih =>
      rw [List.nodup_cons] at h
      rcases List.mem_cons.mp hm with rfl | hmr
      · rw [List.count_cons_self]
        have : List.count t r = 0 := List.count_eq_zero_of_not_mem h.1
        omega
      · rw [List.count_cons_of_ne]
        · exact ih h.2 hmr
        · rintro rfl; exact h.1 hmr

/-- C1: for every run of release-note synthesis, the rendered task list is
exactly the set difference `between − inPrevious` of the two accumulated
task sets, sorted lexicographically ascending; an id in both sets never
appears, an id only in `between` appears exactly once however many commits
or services contributed it, and membership in either set is exactly
"some service's range extraction produced the id". -/
theorem releaseDelta_spec :
    ∀ (dirs : List (GoString × Git.RepoEnv)) (prevBranch : GoString),
      (∀ t, t ∈ Git.newTaskIDs (Git.collectServices dirs prevBranch).1
              (Git.collectServices dirs prevBranch).2.1 ↔
          t ∈ (Git.collectServices dirs prevBranch).1 ∧
            t ∉ (Git.collectServices dirs prevBranch).2.1) ∧
      (Git.newTaskIDs (Git.collectServices dirs prevBranch).1
          (Git.collectServices dirs prevBranch).2.1).Sorted (· ≤ ·) ∧
      (∀ t, List.count t (Git.newTaskIDs (Git.collectServices dirs prevBranch).1
              (Git.collectServices dirs prevBranch).2.1) =
          if t ∈ (Git.collectServices dirs prevBranch).1 ∧
              t ∉ (Git.collectServices dirs prevBranch).2.1 then 1 else 0) ∧
      (∀ t, t ∈ (Git.collectServices dirs prevBranch).1 ↔
          ∃ e ∈ dirs, t ∈ (Git.processService e.2 prevBranch).1) ∧
      (∀ t, t ∈ (Git.collectServices dirs prevBranch).2.1 ↔
          ∃ e ∈ dirs, t ∈ (Git.processService e.2 prevBranch).2.1) := by
  intro dirs prevBranch
  have hmem : ∀ t, t ∈ Git.newTaskIDs (Git.collectServices dirs prevBranch).1
      (Git.collectServices dirs prevBranch).2.1 ↔
      t ∈ (Git.collectServices dirs prevBranch).1 ∧
        t ∉ (Git.collectServices dirs prevBranch).2.1 := by
    intro t
    unfold Git.newTaskIDs
    rw [mem_sortStrings, List.mem_filter]
    simp
  have hnodupBetween : ((Git.collectServices dirs prevBranch).1).Nodup := by
    have := collectServices_between_nodup prevBranch dirs ([], [], []) List.nodup_nil
    exact this
  have hnodup : (Git.newTaskIDs (Git.collectServices dirs prevBranch).1
      (Git.collectServices dirs prevBranch).2.1).Nodup := by
    unfold Git.newTaskIDs
    exact (sortStrings_perm _).symm.nodup
      (List.Nodup.filter _ hnodupBetween)
  refine ⟨hmem, sortStrings_sorted _, ?_, ?_, ?_⟩
  · intro t
    by_cases h : t ∈ (Git.collectServices dirs prevBranch).1 ∧
        t ∉ (Git.collectServices dirs prevBranch).2.1
    · rw [if_pos h]
      exact count_eq_one_of_mem_nodup _ _ hnodup ((hmem t).mpr h)
    · rw [if_neg h]
      exact List.count_eq_zero_of_not_mem (fun hm => h ((hmem t).mp hm))
  · intro t
    have := collectServices_between_mem prevBranch t dirs ([], [], [])
    simpa only [List.not_mem_nil, false_or] using this
  · intro t
    have := collectServices_inPrev_mem prevBranch t dirs ([], [], [])
    simpa only [List.not_mem_nil, false_or] using this

/-- A repository with no remote refs at all. -/
def envNoRefs : Git.RepoEnv :=
  { remoteBranch := fun _ => false, tagRef := fun _ => false,
    mergeBase := fun _ => none, tagsMerged := fun _ _ => none,
    revParse := fun _ => none, revList1 := fun _ => none,
    log := fun _ _ => none }

/-- A repository whose only remote ref is `release/4`. -/
def envSlash4 : Git.RepoEnv :=
  { envNoRefs with remoteBranch := fun b => b == gs "release/4" }

/-- C10: release-note synthesis resolves the previous release branch
against the first entry of the iteration order only.  Whenever that entry's
repository cannot resolve it, the minimal artifact is written no matter
what refs the remaining repositories hold; and with the same two services
in the two possible iteration orders, one run writes the minimal artifact
while the other consults the repository that does hold the ref and writes
the full artifact. -/
theorem releaseNotes_consults_first_entry_only :
    (∀ (entry : GoString × Git.RepoEnv) (rest : List (GoString × Git.RepoEnv))
        (version : Int) (p : GoString),
      Git.GetPreviousReleaseBranch entry.2 version = none →
      Git.CreateReleaseNotes (entry :: rest) version p
        = Git.minimalReleaseNotes version) ∧
    Git.CreateReleaseNotes [(gs "a", envNoRefs), (gs "b", envSlash4)] 5 []
      = Git.minimalReleaseNotes 5 ∧
    Git.CreateReleaseNotes [(gs "b", envSlash4), (gs "a", envNoRefs)] 5 []
      ≠ Git.minimalReleaseNotes 5 := by
  refine ⟨?_, ?_, ?_⟩
  · intro entry rest version p h
    unfold Git.CreateReleaseNotes
    simp only [List.head?_cons, h]
  · decide
  · decide

/-- Witness for C10: the first conjunct applied to the concrete two-service
run whose first iteration entry lacks the previous release ref. -/
theorem releaseNotes_consults_first_entry_only_witness :
    Git.GetPreviousReleaseBranch envNoRefs 5 = none ∧
      Git.CreateReleaseNotes [(gs "a", envNoRefs), (gs "b", envSlash4)] 5 []
        = Git.minimalReleaseNotes 5 :=
  ⟨by decide,
    releaseNotes_consults_first_entry_only.1 (gs "a", envNoRefs)
      [(gs "b", envSlash4)] 5 [] (by decide)⟩

namespace Gitlab

/-
Embedding of `CreatePipelines` from `gitlab/gitlab.go` as a trace
semantics.  The remote CI behaviour of each service is an explicit
`RunSpec`; the sequential loop emits its services' events one after the
other, and a group is an arbitrary interleaving of its members' event
sequences, chosen by a `schedule` that says which member's next event comes
next (`mergeSched` flushes whatever a short schedule leaves over, so every
member's events are always fully contained — the Go code never cancels a
goroutine).  Only terminating executions are modelled: each pipeline
eventually reports a terminal status (the poll-timeout path is a wall-clock
property outside this embedding).
-/

/-- The fields of the `Service` configuration that `CreatePipelines`
dispatch uses. -/
structure Service where
  name : GoString
  group : GoString
  sequential : Bool
deriving Repr, DecidableEq

/-- Non-terminal pipeline statuses (`running|pending|created`). -/
inductive PollStatus
  | running
  | pending
  | created
deriving Repr, DecidableEq

/-- Terminal pipeline statuses. -/
inductive TermStatus
  | success
  | failed
  | canceled
  | skipped
deriving Repr, DecidableEq

/-- The remote behaviour of one service's pipeline: whether the trigger
request succeeds, the non-terminal statuses reported by successive polls,
and the terminal status finally reported. -/
structure RunSpec where
  triggerOk : Bool
  polls : List PollStatus
  term : TermStatus
deriving Repr, DecidableEq

/-- Remote CI behaviour, per service name. -/
def PipelineEnv := GoString → RunSpec

/-- Observable events of a dispatch execution. -/
inductive Ev
  | trigger (name : GoString)
  | triggerFailed (name : GoString)
  | poll (name : GoString) (st : PollStatus)
  | done (name : GoString) (st : TermStatus)
deriving Repr, DecidableEq

/-- The service a given event belongs to. -/
def evName : Ev → GoString
  | .trigger n => n
  | .triggerFailed n => n
  | .poll n _ => n
  | .done n _ => n

/-- The events one service's dispatch produces: a trigger, then either the
trigger failure, or the polls followed by the terminal status
(`createPipeline` then `waitForPipeline`). -/
def svcTrace (env : PipelineEnv) (s : Service) : List Ev :=
  let r := env s.name
  if r.triggerOk then
    Ev.trigger s.name :: (r.polls.map (Ev.poll s.name) ++ [Ev.done s.name r.term])
  else [Ev.trigger s.name, Ev.triggerFailed s.name]

/-- Did this service's pipeline dispatch succeed (trigger accepted and
terminal status `success`)? -/
def svcOk (env : PipelineEnv) (s : Service) : Bool :=
  (env s.name).triggerOk && ((env s.name).term == TermStatus.success)

/-- The errors `CreatePipelines` builds from failures. -/
inductive Err
  | createFailed (name : GoString)
  | pipelineFailed (name : GoString) (st : TermStatus)
deriving Repr, DecidableEq

/-- The error (if any) one event makes its goroutine send to the error
channel. -/
def evErr : Ev → Option Err
  | .triggerFailed n => some (.createFailed n)
  | .done n st => if st = TermStatus.success then none else some (.pipelineFailed n st)
  | _ => none

/-- The errors sent on the channel, in completion order of the trace. -/
def errorsOf (tr : List Ev) : List Err := tr.filterMap evErr

/-- The sequential phase: process each sequential service fully — trigger,
poll to terminal — and stop at the first failure, as the early `return`s of
the sequential loop do. -/
def runSeq (env : PipelineEnv) : List Service → List Ev × Option Err
  | [] => ([], none)
  | s :: rest =>
      if (env s.name).triggerOk then
        if (env s.name).term = TermStatus.success then
          let t := runSeq env rest
          (svcTrace env s ++ t.1, t.2)
        else (svcTrace env s, some (.pipelineFailed s.name (env s.name).term))
      else (svcTrace env s, some (.createFailed s.name))

/-- Interleave the member lanes of a group according to a schedule of lane
indices; whatever the schedule leaves over is flushed at the end, so the
merge always contains every lane's events (no cancellation). -/
def mergeSched : List Nat → List (List Ev) → List Ev
  | [], lanes => lanes.flatten
  | k :: ks, lanes =>
      match h : lanes[k]? with
      | some (e :: tl) => e :: mergeSched ks (lanes.set k tl)
      | some [] => mergeSched ks lanes
      | none => mergeSched ks lanes

/-- One group: run all members concurrently (an arbitrary interleaving),
wait for all of them (`wg.Wait`), then surface the first error sent on the
channel, if any. -/
def runGroup (env : PipelineEnv) (sched : List Nat) (svcs : List Service) :
    List Ev × Option Err :=
  let tr := mergeSched sched (svcs.map (svcTrace env))
  (tr, (errorsOf tr).head?)

/-- The group phase: groups one after the other, stopping at the first
group that surfaces an error. -/
def runGroups (env : PipelineEnv) :
    List (List Nat) → List (GoString × List Service) → List Ev × Option Err
  | _, [] => ([], none)
  | scheds, (_, svcs) :: rest =>
      let g := runGroup env (scheds.headD []) svcs
      match g.2 with
      | some e => (g.1, some e)
      | none =>
          let t := runGroups env scheds.tail rest
          (g.1 ++ t.1, t.2)

/-- Insertion into the `groups` map of `CreatePipelines`, observed as an
association list in first-insertion order. -/
def addToGroup : List (GoString × List Service) → GoString → Service →
    List (GoString × List Service)
  | [], g, s => [(g, [s])]
  | (g', l) :: rest, g, s =>
      if g' = g then (g, l ++ [s]) :: rest
      else (g', l) :: addToGroup rest g s

/-- The classification loop of `CreatePipelines`: sequential services (and
ungrouped non-sequential ones) in order, and the named groups. -/
def partitionServices (services : List Service) :
    List Service × List (GoString × List Service) :=
  services.foldl
    (fun acc s =>
      if s.sequential then (acc.1 ++ [s], acc.2)
      else if s.group ≠ [] then (acc.1, addToGroup acc.2 s.group s)
      else (acc.1 ++ [s], acc.2))
    ([], [])

/-- Embedding of `CreatePipelines`: the full dispatch trace and its result.
`scheds` fixes each group's interleaving; `groupOrder` is the unspecified
iteration order of the Go `groups` map (any reordering function — all the
theorems below hold for every choice). -/
def CreatePipelines (env : PipelineEnv) (scheds : List (List Nat))
    (groupOrder : List (GoString × List Service) → List (GoString × List Service))
    (services : List Service) : List Ev × Option Err :=
  let p := partitionServices services
  let s := runSeq env p.1
  match s.2 with
  | some e => (s.1, some e)
  | none =>
      let g := runGroups env scheds (groupOrder p.2)
      (s.1 ++ g.1, g.2)

theorem indexOf_append_left (e : Ev) (l1 l2 : List Ev) (h : e ∈ l1) :
    List.indexOf e (l1 ++ l2) = List.indexOf e l1 := by
  induction l1 with
  | nil => cases h
  | cons a r ih =>
      by_cases ha : e = a
      · subst ha
        simp [List.indexOf_cons_self]
      · rcases List.mem_cons.mp h with rfl | hr
        · exact absurd rfl ha
        · rw [List.cons_append, List.indexOf_cons_ne _ (fun hx => ha hx.symm),
            List.indexOf_cons_ne _ (fun hx => ha hx.symm), ih hr]

theorem indexOf_lt_of_mem_left (e1 e2 : Ev) (l1 l2 : List Ev)
    (h1 : e1 ∈ l1) (h2 : e2 ∉ l1) :
    List.indexOf e1 (l1 ++ l2) < List.indexOf e2 (l1 ++ l2) := by
  rw [indexOf_append_left e1 l1 l2 h1, List.indexOf_append_of_not_mem h2]
  have := List.indexOf_lt_length.mpr h1
  omega

theorem evName_svcTrace (env : Gitlab.PipelineEnv) (s : Gitlab.Service) :
    ∀ e ∈ Gitlab.svcTrace env s, Gitlab.evName e = s.name := by
  intro e he
  unfold Gitlab.svcTrace at he
  simp only [] at he
  split_ifs at he
  · rcases List.mem_cons.mp he with rfl | he2
    · rfl
    · rcases List.mem_append.mp he2 with hp | hd
      · rcases List.mem_map.mp hp with ⟨st, _, rfl⟩
        rfl
      · rcases List.mem_singleton.mp hd with rfl
        rfl
  · rcases List.mem_cons.mp he with rfl | he2
    · rfl
    · rcases List.mem_singleton.mp (by simpa using he2) with rfl
      rfl

theorem trigger_mem_svcTrace (env : Gitlab.PipelineEnv) (s : Gitlab.Service) :
    Gitlab.Ev.trigger s.name ∈ Gitlab.svcTrace env s := by
  unfold Gitlab.svcTrace
  simp only []
  split_ifs <;> simp

theorem done_mem_svcTrace (env : Gitlab.PipelineEnv) (s : Gitlab.Service)
    (h : (env s.name).triggerOk = true) :
    Gitlab.Ev.done s.name (env s.name).term ∈ Gitlab.svcTrace env s := by
  unfold Gitlab.svcTrace
  simp only []
  rw [if_pos h]
  simp

theorem errorsOf_svcTrace (env : Gitlab.PipelineEnv) (s : Gitlab.Service) :
    Gitlab.errorsOf (Gitlab.svcTrace env s) = []
      ↔ Gitlab.svcOk env s = true := by
  unfold Gitlab.errorsOf Gitlab.svcTrace Gitlab.svcOk
  simp only []
  split_ifs with h
  · rw [List.filterMap_cons]
    have hpolls : List.filterMap Gitlab.evErr
        ((env s.name).polls.map (Gitlab.Ev.poll s.name)) = [] := by
      rw [List.filterMap_eq_nil]
      intro a ha
      rcases List.mem_map.mp ha with ⟨st, _, rfl⟩
      rfl
    simp only [Gitlab.evErr, List.filterMap_append, hpolls, List.nil_append,
      List.filterMap_cons, List.filterMap_nil, h, Bool.true_and]
    by_cases ht : (env s.name).term = Gitlab.TermStatus.success
    · simp [ht]
    · simp [ht]
  · simp only [Bool.not_eq_true] at h
    simp [Gitlab.evErr, List.filterMap_cons, h]

theorem flatten_set_perm (e : Gitlab.Ev) :
    ∀ (lanes : List (List Gitlab.Ev)) (k : Nat) (tl : List Gitlab.Ev),
      lanes[k]? = some (e :: tl) →
      lanes.flatten.Perm (e :: (lanes.set k tl).flatten) := by
  intro lanes
  induction lanes with
  | nil => intro k tl h; simp at h
  | cons lane rest ih =>
      intro k tl h
      cases k with
      | zero =>
          simp only [List.getElem?_cons_zero, Option.some_inj] at h
          subst h
          simp
      | succ k2 =>
          simp only [List.getElem?_cons_succ] at h
          have hp := ih k2 tl h
          simpa using (hp.append_left lane).trans List.perm_middle

theorem mergeSched_perm :
    ∀ (ks : List Nat) (lanes : List (List Gitlab.Ev)),
      (Gitlab.mergeSched ks lanes).Perm lanes.flatten := by
  intro ks
  induction ks with
  | nil => intro lanes; exact List.Perm.refl _
  | cons k ks2 ih =>
      intro lanes
      unfold Gitlab.mergeSched
      split
      · next e tl h =>
          exact ((ih (lanes.set k tl)).cons e).trans (flatten_set_perm e lanes k tl h).symm
      · exact ih lanes
      · exact ih lanes

theorem svcOk_iff (env : PipelineEnv) (s : Service) :
    svcOk env s = true ↔
      (env s.name).triggerOk = true ∧ (env s.name).term = TermStatus.success := by
  unfold svcOk
  simp

theorem runSeq_cons_ok (env : PipelineEnv) (s : Service) (rest : List Service)
    (h1 : (env s.name).triggerOk = true)
    (h2 : (env s.name).term = TermStatus.success) :
    runSeq env (s :: rest)
      = (svcTrace env s ++ (runSeq env rest).1, (runSeq env rest).2) := by
  conv_lhs => unfold runSeq
  rw [if_pos h1, if_pos h2]

theorem runSeq_cons_termFail (env : PipelineEnv) (s : Service) (rest : List Service)
    (h1 : (env s.name).triggerOk = true)
    (h2 : ¬ (env s.name).term = TermStatus.success) :
    runSeq env (s :: rest)
      = (svcTrace env s, some (Err.pipelineFailed s.name (env s.name).term)) := by
  unfold runSeq
  rw [if_pos h1, if_neg h2]

theorem runSeq_cons_trigFail (env : PipelineEnv) (s : Service) (rest : List Service)
    (h1 : ¬ (env s.name).triggerOk = true) :
    runSeq env (s :: rest) = (svcTrace env s, some (Err.createFailed s.name)) := by
  unfold runSeq
  rw [if_neg h1]

theorem runSeq_none_iff (env : PipelineEnv) :
    ∀ (l : List Service),
      (runSeq env l).2 = none ↔ ∀ s ∈ l, svcOk env s = true := by
  intro l
  induction l with
  | nil => simp [runSeq]
  | cons s rest ih =>
      by_cases h1 : (env s.name).triggerOk = true
      · by_cases h2 : (env s.name).term = TermStatus.success
        · rw [runSeq_cons_ok env s rest h1 h2]
          simp only []
          rw [ih]
          constructor
          · intro hall s2 hs2
            rcases List.mem_cons.mp hs2 with rfl | hs2
            · exact (svcOk_iff env s2).mpr ⟨h1, h2⟩
            · exact hall s2 hs2
          · intro hall s2 hs2
            exact hall s2 (List.mem_cons_of_mem _ hs2)
        · rw [runSeq_cons_termFail env s rest h1 h2]
          simp only []
          constructor
          · intro hc; cases hc
          · intro hall
            exact absurd ((svcOk_iff env s).mp
              (hall s (List.mem_cons_self _ _))).2 h2
      · rw [runSeq_cons_trigFail env s rest h1]
        simp only []
        constructor
        · intro hc; cases hc
        · intro hall
          exact absurd ((svcOk_iff env s).mp
            (hall s (List.mem_cons_self _ _))).1 h1

theorem runSeq_trace_of_none (env : PipelineEnv) :
    ∀ (l : List Service), (runSeq env l).2 = none →
      (runSeq env l).1 = (l.map (svcTrace env)).flatten := by
  intro l
  induction l with
  | nil => intro _; rfl
  | cons s rest ih =>
      intro h
      have hall := (runSeq_none_iff env (s :: rest)).mp h
      have h1 := ((svcOk_iff env s).mp (hall s (List.mem_cons_self _ _))).1
      have h2 := ((svcOk_iff env s).mp (hall s (List.mem_cons_self _ _))).2
      rw [runSeq_cons_ok env s rest h1 h2] at h ⊢
      simp only [] at h ⊢
      rw [ih h]
      simp

theorem runSeq_decomp (env : PipelineEnv) :
    ∀ (l1 : List Service) (sj : Service) (l2 : List Service),
      Ev.trigger sj.name ∈ (runSeq env (l1 ++ sj :: l2)).1 →
      sj.name ∉ l1.map Service.name →
      (∀ s ∈ l1, svcOk env s = true) ∧
        ∃ tl, (runSeq env (l1 ++ sj :: l2)).1
          = (l1.map (svcTrace env)).flatten ++ (svcTrace env sj ++ tl) := by
  intro l1
  induction l1 with
  | nil =>
      intro sj l2 _ _
      constructor
      · intro s hs
        cases hs
      simp only [List.nil_append]
      by_cases h1 : (env sj.name).triggerOk = true
      · by_cases h2 : (env sj.name).term = TermStatus.success
        · exact ⟨(runSeq env l2).1, by rw [runSeq_cons_ok env sj l2 h1 h2]; simp⟩
        · exact ⟨[], by rw [runSeq_cons_termFail env sj l2 h1 h2]; simp⟩
      · exact ⟨[], by rw [runSeq_cons_trigFail env sj l2 h1]; simp⟩
  | cons a l1x ih =>
      intro sj l2 hin hname
      have hnamene : Ev.trigger sj.name ∉ svcTrace env a := by
        intro hmem
        have := evName_svcTrace env a _ hmem
        simp only [evName] at this
        exact hname (by simp [this])
      have hname2 : sj.name ∉ l1x.map Service.name := by
        intro hx
        exact hname (List.mem_cons_of_mem _ hx)
      rw [List.cons_append] at hin ⊢
      by_cases h1 : (env a.name).triggerOk = true
      · by_cases h2 : (env a.name).term = TermStatus.success
        · rw [runSeq_cons_ok env a _ h1 h2] at hin ⊢
          simp only [] at hin ⊢
          rcases List.mem_append.mp hin with hl | hr
          · exact absurd hl hnamene
          · rcases ih sj l2 hr hname2 with ⟨hok, tl, htl⟩
            refine ⟨?_, ⟨tl, ?_⟩⟩
            · intro s hs
              rcases List.mem_cons.mp hs with rfl | hs
              · exact (svcOk_iff env s).mpr ⟨h1, h2⟩
              · exact hok s hs
            · rw [htl]
              simp
        · rw [runSeq_cons_termFail env a _ h1 h2] at hin
          exact absurd hin hnamene
      · rw [runSeq_cons_trigFail env a _ h1] at hin
        exact absurd hin hnamene

theorem head?_filterMap_first {A B : Type} (f : A → Option B) :
    ∀ (l : List A) (b : B), (l.filterMap f).head? = some b →
      ∃ (k : Nat) (a : A), l[k]? = some a ∧ f a = some b ∧
        ∀ (j : Nat) (aj : A), j < k → l[j]? = some aj → f aj = none := by
  intro l
  induction l with
  | nil => intro b h; simp at h
  | cons x xs ih =>
      intro b h
      rw [List.filterMap_cons] at h
      cases hf : f x with
      | some b2 =>
          rw [hf] at h
          simp only [List.head?_cons, Option.some_inj] at h
          subst h
          exact ⟨0, x, by simp, hf, by intro j aj hj _; omega⟩
      | none =>
          rw [hf] at h
          rcases ih b h with ⟨k, a, hk, hfa, hmin⟩
          refine ⟨k + 1, a, by simpa using hk, hfa, ?_⟩
          intro j aj hj haj
          cases j with
          | zero =>
              simp only [List.getElem?_cons_zero, Option.some_inj] at haj
              subst haj
              exact hf
          | succ j2 =>
              simp only [List.getElem?_cons_succ] at haj
              exact hmin j2 aj (by omega) haj

theorem createPipelines_eq_some (env : PipelineEnv) (scheds : List (List Nat))
    (gord : List (GoString × List Service) → List (GoString × List Service))
    (services : List Service) (e : Err)
    (h : (runSeq env (partitionServices services).1).2 = some e) :
    CreatePipelines env scheds gord services
      = ((runSeq env (partitionServices services).1).1, some e) := by
  unfold CreatePipelines
  simp only []
  rw [h]

theorem createPipelines_eq_none (env : PipelineEnv) (scheds : List (List Nat))
    (gord : List (GoString × List Service) → List (GoString × List Service))
    (services : List Service)
    (h : (runSeq env (partitionServices services).1).2 = none) :
    CreatePipelines env scheds gord services
      = ((runSeq env (partitionServices services).1).1
          ++ (runGroups env scheds (gord (partitionServices services).2)).1,
         (runGroups env scheds (gord (partitionServices services).2)).2) := by
  unfold CreatePipelines
  simp only []
  rw [h]

theorem trigger_not_mem_svcTrace (env : PipelineEnv) (s : Service) (n : GoString)
    (h : ¬ n = s.name) : Ev.trigger n ∉ svcTrace env s := by
  intro hm
  exact h (evName_svcTrace env s _ hm)

theorem runGroups_cons_fail (env : PipelineEnv) (scheds : List (List Nat))
    (gname : GoString) (svcs : List Service)
    (grest : List (GoString × List Service)) (e : Err)
    (h : (runGroup env (scheds.headD []) svcs).2 = some e) :
    runGroups env scheds ((gname, svcs) :: grest)
      = ((runGroup env (scheds.headD []) svcs).1, some e) := by
  unfold runGroups
  simp only []
  rw [h]

/-- Scenario services: two sequential services and one group of two. -/
def svc1 : Service := { name := gs "s1", group := [], sequential := true }

/-- Second sequential scenario service. -/
def svc2 : Service := { name := gs "s2", group := [], sequential := true }

/-- First member of scenario group `g1`. -/
def svc3 : Service := { name := gs "s3", group := gs "g1", sequential := false }

/-- Second member of scenario group `g1`. -/
def svc4 : Service := { name := gs "s4", group := gs "g1", sequential := false }

/-- The scenario service list: sequential `[s1, s2]`, group `g1 = {s3, s4}`. -/
def scenarioServices : List Service := [svc1, svc2, svc3, svc4]

/-- C8: the dispatch handles sequential services one at a time — whenever a
sequential service is triggered, every sequential service before it has
been dispatched to terminal success, and its terminal event precedes the
later service's trigger in the dispatch trace; on a sequential failure the
dispatch trace is the sequential trace alone (the group phase never
starts), and when all sequential services succeed the group phase runs
strictly after the complete sequential trace.  In the concrete scenario
(sequential `[s1, s2]`, group `g1 = {s3, s4}`), for every remote behaviour
and every interleaving, `s1` completes before `s2` starts and both complete
before `s3` or `s4` start. -/
theorem createPipelines_ordering :
    (∀ (env : PipelineEnv) (scheds : List (List Nat))
        (gord : List (GoString × List Service) → List (GoString × List Service))
        (services l1 : List Service) (sj : Service) (l2 : List Service),
      (partitionServices services).1 = l1 ++ sj :: l2 →
      sj.name ∉ l1.map Service.name →
      Ev.trigger sj.name ∈ (CreatePipelines env scheds gord services).1 →
      (∀ s ∈ l1, svcOk env s = true) ∧
        ∀ s ∈ l1,
          List.indexOf (Ev.done s.name TermStatus.success)
              (CreatePipelines env scheds gord services).1
            < List.indexOf (Ev.trigger sj.name)
              (CreatePipelines env scheds gord services).1) ∧
    (∀ (env : PipelineEnv) (scheds : List (List Nat))
        (gord : List (GoString × List Service) → List (GoString × List Service))
        (services : List Service) (e : Err),
      (runSeq env (partitionServices services).1).2 = some e →
      CreatePipelines env scheds gord services
        = ((runSeq env (partitionServices services).1).1, some e)) ∧
    (∀ (env : PipelineEnv) (scheds : List (List Nat))
        (gord : List (GoString × List Service) → List (GoString × List Service))
        (services : List Service),
      (runSeq env (partitionServices services).1).2 = none →
      (∀ s ∈ (partitionServices services).1, svcOk env s = true) ∧
      (CreatePipelines env scheds gord services).1
        = (runSeq env (partitionServices services).1).1
          ++ (runGroups env scheds (gord (partitionServices services).2)).1) ∧
    (∀ (env : PipelineEnv) (scheds : List (List Nat)),
      (∀ s ∈ scenarioServices, svcOk env s = true) →
      List.indexOf (Ev.done (gs "s1") TermStatus.success)
          (CreatePipelines env scheds id scenarioServices).1
        < List.indexOf (Ev.trigger (gs "s2"))
          (CreatePipelines env scheds id scenarioServices).1 ∧
      List.indexOf (Ev.done (gs "s1") TermStatus.success)
          (CreatePipelines env scheds id scenarioServices).1
        < List.indexOf (Ev.trigger (gs "s3"))
          (CreatePipelines env scheds id scenarioServices).1 ∧
      List.indexOf (Ev.done (gs "s1") TermStatus.success)
          (CreatePipelines env scheds id scenarioServices).1
        < List.indexOf (Ev.trigger (gs "s4"))
          (CreatePipelines env scheds id scenarioServices).1 ∧
      List.indexOf (Ev.done (gs "s2") TermStatus.success)
          (CreatePipelines env scheds id scenarioServices).1
        < List.indexOf (Ev.trigger (gs "s3"))
          (CreatePipelines env scheds id scenarioServices).1 ∧
      List.indexOf (Ev.done (gs "s2") TermStatus.success)
          (CreatePipelines env scheds id scenarioServices).1
        < List.indexOf (Ev.trigger (gs "s4"))
          (CreatePipelines env scheds id scenarioServices).1) := by
  have part1 : ∀ (env : PipelineEnv) (scheds : List (List Nat))
      (gord : List (GoString × List Service) → List (GoString × List Service))
      (services l1 : List Service) (sj : Service) (l2 : List Service),
      (partitionServices services).1 = l1 ++ sj :: l2 →
      sj.name ∉ l1.map Service.name →
      Ev.trigger sj.name ∈ (CreatePipelines env scheds gord services).1 →
      (∀ s ∈ l1, svcOk env s = true) ∧
        ∀ s ∈ l1,
          List.indexOf (Ev.done s.name TermStatus.success)
              (CreatePipelines env scheds gord services).1
            < List.indexOf (Ev.trigger sj.name)
              (CreatePipelines env scheds gord services).1 := by
    intro env scheds gord services l1 sj l2 hpart hname hin
    have hT : (∀ s ∈ l1, svcOk env s = true) ∧
        ∃ T, (CreatePipelines env scheds gord services).1
          = (l1.map (svcTrace env)).flatten ++ T := by
      cases hres : (runSeq env (partitionServices services).1).2 with
      | some e =>
          rw [createPipelines_eq_some env scheds gord services e hres] at hin ⊢
          simp only [] at hin ⊢
          rw [hpart] at hin ⊢
          rcases runSeq_decomp env l1 sj l2 hin hname with ⟨hok, tl, htl⟩
          exact ⟨hok, ⟨svcTrace env sj ++ tl, htl⟩⟩
      | none =>
          have hall := (runSeq_none_iff env _).mp hres
          rw [hpart] at hall
          have hok : ∀ s ∈ l1, svcOk env s = true :=
            fun s hs => hall s (List.mem_append_left _ hs)
          have htr1 : (CreatePipelines env scheds gord services).1
              = (runSeq env (partitionServices services).1).1
                ++ (runGroups env scheds (gord (partitionServices services).2)).1 := by
            rw [createPipelines_eq_none env scheds gord services hres]
          have hseq := runSeq_trace_of_none env _ hres
          refine ⟨hok, ⟨svcTrace env sj ++ ((l2.map (svcTrace env)).flatten
            ++ (runGroups env scheds (gord (partitionServices services).2)).1), ?_⟩⟩
          rw [htr1, hseq, hpart]
          simp [List.map_append, List.flatten_append, List.append_assoc]
    rcases hT with ⟨hok, T, htr⟩
    refine ⟨hok, ?_⟩
    intro s hs
    have h1 := ((svcOk_iff env s).mp (hok s hs)).1
    have h2 := ((svcOk_iff env s).mp (hok s hs)).2
    have hdone_mem : Ev.done s.name TermStatus.success
        ∈ (l1.map (svcTrace env)).flatten := by
      refine List.mem_flatten.mpr ⟨svcTrace env s, List.mem_map_of_mem _ hs, ?_⟩
      have hd := done_mem_svcTrace env s h1
      rwa [h2] at hd
    have htrig_nmem : Ev.trigger sj.name ∉ (l1.map (svcTrace env)).flatten := by
      intro hmem
      rcases List.mem_flatten.mp hmem with ⟨lane, hlane, hev⟩
      rcases List.mem_map.mp hlane with ⟨s2, hs2, rfl⟩
      have he := evName_svcTrace env s2 _ hev
      simp only [evName] at he
      refine hname ?_
      rw [he]
      exact List.mem_map_of_mem _ hs2
    rw [htr]
    exact indexOf_lt_of_mem_left _ _ _ _ hdone_mem htrig_nmem
  refine ⟨part1, ?_, ?_, ?_⟩
  · intro env scheds gord services e h
    exact createPipelines_eq_some env scheds gord services e h
  · intro env scheds gord services h
    exact ⟨(runSeq_none_iff env _).mp h,
      by rw [createPipelines_eq_none env scheds gord services h]⟩
  · intro env scheds hsucc
    have hpartEq : partitionServices scenarioServices
        = ([svc1, svc2], [(gs "g1", [svc3, svc4])]) := by decide
    have hok1 : svcOk env svc1 = true := hsucc svc1 (by simp [scenarioServices])
    have hok2 : svcOk env svc2 = true := hsucc svc2 (by simp [scenarioServices])
    have hres : (runSeq env (partitionServices scenarioServices).1).2 = none := by
      rw [hpartEq]
      refine (runSeq_none_iff env _).mpr ?_
      intro s hs
      rcases List.mem_cons.mp hs with rfl | hs
      · exact hok1
      · rcases List.mem_cons.mp hs with rfl | hs
        · exact hok2
        · cases hs
    have htr1 : (CreatePipelines env scheds id scenarioServices).1
        = (runSeq env (partitionServices scenarioServices).1).1
          ++ (runGroups env scheds (id (partitionServices scenarioServices).2)).1 := by
      rw [createPipelines_eq_none env scheds id scenarioServices hres]
    have hseq0 := runSeq_trace_of_none env _ hres
    have hseq : (runSeq env (partitionServices scenarioServices).1).1
        = svcTrace env svc1 ++ svcTrace env svc2 := by
      rw [hseq0, hpartEq]
      simp
    rw [hseq] at htr1
    have h11 := ((svcOk_iff env svc1).mp hok1).1
    have h12 := ((svcOk_iff env svc1).mp hok1).2
    have h21 := ((svcOk_iff env svc2).mp hok2).1
    have h22 := ((svcOk_iff env svc2).mp hok2).2
    have hdone1 : Ev.done (gs "s1") TermStatus.success ∈ svcTrace env svc1 := by
      have hd := done_mem_svcTrace env svc1 h11
      rwa [h12] at hd
    have hdone2 : Ev.done (gs "s2") TermStatus.success ∈ svcTrace env svc2 := by
      have hd := done_mem_svcTrace env svc2 h21
      rwa [h22] at hd
    have hnm12 : Ev.trigger (gs "s2") ∉ svcTrace env svc1 :=
      trigger_not_mem_svcTrace env svc1 _ (by decide)
    have hnm13 : Ev.trigger (gs "s3") ∉ svcTrace env svc1 :=
      trigger_not_mem_svcTrace env svc1 _ (by decide)
    have hnm14 : Ev.trigger (gs "s4") ∉ svcTrace env svc1 :=
      trigger_not_mem_svcTrace env svc1 _ (by decide)
    have hnm23 : Ev.trigger (gs "s3") ∉ svcTrace env svc2 :=
      trigger_not_mem_svcTrace env svc2 _ (by decide)
    have hnm24 : Ev.trigger (gs "s4") ∉ svcTrace env svc2 :=
      trigger_not_mem_svcTrace env svc2 _ (by decide)
    have htrB : (CreatePipelines env scheds id scenarioServices).1
        = (svcTrace env svc1 ++ svcTrace env svc2)
          ++ (runGroups env scheds (id (partitionServices scenarioServices).2)).1 := htr1
    have htrA : (CreatePipelines env scheds id scenarioServices).1
        = svcTrace env svc1 ++ (svcTrace env svc2
          ++ (runGroups env scheds (id (partitionServices scenarioServices).2)).1) := by
      rw [htrB, List.append_assoc]
    refine ⟨?_, ?_, ?_, ?_, ?_⟩
    · rw [htrA]
      exact indexOf_lt_of_mem_left _ _ _ _ hdone1 hnm12
    · rw [htrA]
      exact indexOf_lt_of_mem_left _ _ _ _ hdone1 hnm13
    · rw [htrA]
      exact indexOf_lt_of_mem_left _ _ _ _ hdone1 hnm14
    · rw [htrB]
      refine indexOf_lt_of_mem_left _ _ _ _ (List.mem_append_right _ hdone2) ?_
      intro hmem
      rcases List.mem_append.mp hmem with hx | hx
      · exact hnm13 hx
      · exact hnm23 hx
    · rw [htrB]
      refine indexOf_lt_of_mem_left _ _ _ _ (List.mem_append_right _ hdone2) ?_
      intro hmem
      rcases List.mem_append.mp hmem with hx | hx
      · exact hnm14 hx
      · exact hnm24 hx

/-- A remote behaviour on which every pipeline triggers, polls once as
running, and succeeds. -/
def envAllOk : PipelineEnv := fun _ =>
  { triggerOk := true, polls := [PollStatus.running], term := TermStatus.success }

/-- Witness for C8: the scenario ordering on a concrete all-success remote
behaviour and a concrete interleaving of the group. -/
theorem createPipelines_ordering_witness :
    (∀ s ∈ scenarioServices, svcOk envAllOk s = true) ∧
      List.indexOf (Ev.done (gs "s1") TermStatus.success)
          (CreatePipelines envAllOk [[0, 1, 0, 1]] id scenarioServices).1
        < List.indexOf (Ev.trigger (gs "s2"))
          (CreatePipelines envAllOk [[0, 1, 0, 1]] id scenarioServices).1 :=
  ⟨by decide,
    (createPipelines_ordering.2.2.2 envAllOk [[0, 1, 0, 1]] (by decide)).1⟩

/-- C9: within a group, the dispatch lets every triggered member run to its
terminal status (its terminal event is in the group trace that precedes the
return — no forced cancellation); the group phase returns no error exactly
when every member succeeded, so one member failure fails the group and,
through `CreatePipelines`, the whole dispatch; and the surfaced error is
the first failure in completion order: its event occurs in the group trace
strictly before any other error event. -/
theorem groupFailure_spec :
    (∀ (env : PipelineEnv) (sched : List Nat) (svcs : List Service) (m : Service),
      m ∈ svcs → (env m.name).triggerOk = true →
      Ev.done m.name (env m.name).term ∈ (runGroup env sched svcs).1) ∧
    (∀ (env : PipelineEnv) (sched : List Nat) (svcs : List Service),
      (runGroup env sched svcs).2 = none ↔ ∀ m ∈ svcs, svcOk env m = true) ∧
    (∀ (env : PipelineEnv) (sched : List Nat) (svcs : List Service) (e : Err),
      (runGroup env sched svcs).2 = some e →
      ∃ (k : Nat) (ev : Ev), (runGroup env sched svcs).1[k]? = some ev ∧
        evErr ev = some e ∧
        ∀ (j : Nat) (evj : Ev), j < k → (runGroup env sched svcs).1[j]? = some evj →
          evErr evj = none) ∧
    (∀ (env : PipelineEnv) (scheds : List (List Nat))
        (gord : List (GoString × List Service) → List (GoString × List Service))
        (services : List Service) (gname : GoString) (svcs : List Service)
        (grest : List (GoString × List Service)) (e : Err),
      (runSeq env (partitionServices services).1).2 = none →
      gord (partitionServices services).2 = (gname, svcs) :: grest →
      (runGroup env (scheds.headD []) svcs).2 = some e →
      (CreatePipelines env scheds gord services).2 = some e) := by
  refine ⟨?_, ?_, ?_, ?_⟩
  · intro env sched svcs m hm htrig
    show Ev.done m.name (env m.name).term
      ∈ mergeSched sched (svcs.map (svcTrace env))
    refine (mergeSched_perm sched (svcs.map (svcTrace env))).mem_iff.mpr ?_
    exact List.mem_flatten.mpr
      ⟨svcTrace env m, List.mem_map_of_mem _ hm, done_mem_svcTrace env m htrig⟩
  · intro env sched svcs
    show (errorsOf (mergeSched sched (svcs.map (svcTrace env)))).head? = none ↔ _
    have hperm : (errorsOf (mergeSched sched (svcs.map (svcTrace env)))).Perm
        (errorsOf ((svcs.map (svcTrace env)).flatten)) :=
      (mergeSched_perm sched (svcs.map (svcTrace env))).filterMap evErr
    constructor
    · intro h m hm
      have hnil : errorsOf (mergeSched sched (svcs.map (svcTrace env))) = [] := by
        cases herr : errorsOf (mergeSched sched (svcs.map (svcTrace env))) with
        | nil => rfl
        | cons a l => rw [herr] at h; cases h
      have hfnil : errorsOf ((svcs.map (svcTrace env)).flatten) = [] := by
        rw [hnil] at hperm
        exact hperm.symm.eq_nil
      have hall := List.filterMap_eq_nil.mp hfnil
      refine (errorsOf_svcTrace env m).mp ?_
      refine List.filterMap_eq_nil.mpr ?_
      intro ev hev
      refine hall ev (List.mem_flatten.mpr ⟨svcTrace env m, ?_, hev⟩)
      exact List.mem_map_of_mem _ hm
    · intro hall
      have hfnil : errorsOf ((svcs.map (svcTrace env)).flatten) = [] := by
        refine List.filterMap_eq_nil.mpr ?_
        intro ev hev
        rcases List.mem_flatten.mp hev with ⟨lane, hlane, hev2⟩
        rcases List.mem_map.mp hlane with ⟨m, hm, rfl⟩
        have := (errorsOf_svcTrace env m).mpr (hall m hm)
        exact List.filterMap_eq_nil.mp this ev hev2
      have hnil : errorsOf (mergeSched sched (svcs.map (svcTrace env))) = [] := by
        rw [hfnil] at hperm
        exact hperm.eq_nil
      rw [hnil]
      rfl
  · intro env sched svcs e h
    exact head?_filterMap_first evErr _ e h
  · intro env scheds gord services gname svcs grest e hseqnone hgord hgfail
    rw [createPipelines_eq_none env scheds gord services hseqnone]
    show (runGroups env scheds (gord (partitionServices services).2)).2 = some e
    rw [hgord, runGroups_cons_fail env scheds gname svcs grest e hgfail]

/-- A remote behaviour on which `s3` fails its pipeline while everything
else succeeds. -/
def envS3Fails : PipelineEnv := fun n =>
  if n = gs "s3" then
    { triggerOk := true, polls := [], term := TermStatus.failed }
  else
    { triggerOk := true, polls := [PollStatus.running], term := TermStatus.success }

/-- Witness for C9 on the concrete group `{s3, s4}` where `s3` fails:
`s4` still reaches its terminal status in the group trace, and the group
surfaces an error. -/
theorem groupFailure_spec_witness :
    (svc4 ∈ [svc3, svc4] ∧ (envS3Fails svc4.name).triggerOk = true ∧
      Ev.done svc4.name (envS3Fails svc4.name).term
        ∈ (runGroup envS3Fails [0, 1, 1] [svc3, svc4]).1) ∧
      (runGroup envS3Fails [0, 1, 1] [svc3, svc4]).2
        = some (Err.pipelineFailed (gs "s3") TermStatus.failed) :=
  ⟨⟨by decide, by decide,
      groupFailure_spec.1 envS3Fails [0, 1, 1] [svc3, svc4] svc4
        (by decide) (by decide)⟩,
    by decide⟩

end Gitlab

end DeployScript
